import Mathlib

/-!
Verification development for the clauderan command-history tool: a shallow
embedding of its frecency scorer (src/frecency.ts), JSONL log parser and
incremental indexer (sync.ts), and query engine (db.ts, format.ts), together
with theorems checking the specification's claims about them.

Modelling conventions:
* JavaScript numbers that hold millisecond timestamps are modelled as `Int`
  (they are exact integers far below 2^53); `NaN` from an invalid
  `new Date(...)` is modelled as `none : Option Int`, and every comparison
  against `none` is false, exactly as every comparison against `NaN` is.
* `Math.log10` and `JSON.parse` and `new Date(...).getTime()` are modelled as
  function parameters (`log10 : Int -> Rat`, `decode : String -> Option
  MessageEntry`, `parseDate : String -> Option Int`): the theorems hold for
  every interpretation of them.  `none` from `decode` models a line on which
  `JSON.parse` throws.
* Floating-point score arithmetic is modelled over `Rat`; the claims proved
  about it concern algebraic structure and ranges, not rounding.
* String splitting, trimming, joining, byte lengths and first-occurrence
  replacement are re-implemented over `List Char` with JavaScript semantics
  (`split`, `trim`, `join`, `Buffer.byteLength(-, "utf-8")`,
  `String.prototype.replace` with a string pattern).
-/

/-! ## JavaScript string and number primitives -/

/-- UTF-8 byte count of one character, as `Buffer.byteLength` counts it. -/
def charBytes (c : Char) : Nat :=
  if c.toNat < 128 then 1
  else if c.toNat < 2048 then 2
  else if c.toNat < 65536 then 3
  else 4

/-- UTF-8 byte length of a string: models `Buffer.byteLength(s, "utf-8")`. -/
def utf8Len (s : String) : Nat :=
  s.data.foldl (fun n c => n + charBytes c) 0

/-- Split a character list at every occurrence of `sep`: models
`String.prototype.split` with a one-character separator. -/
def splitOnChar (sep : Char) : List Char → List (List Char)
  | [] => [[]]
  | c :: rest =>
    if c = sep then [] :: splitOnChar sep rest
    else
      match splitOnChar sep rest with
      | [] => [[c]]
      | l :: ls => (c :: l) :: ls

/-- Models `content.split("\n")`. -/
def jsSplitNewline (s : String) : List String :=
  (splitOnChar ('\n') s.data).map String.mk

/-- Models `Array.prototype.join("\n")` on a list of lines. -/
def joinNL : List String → String
  | [] => ""
  | [s] => s
  | s :: rest => s ++ "\n" ++ joinNL rest

/-- Whitespace stripped by `String.prototype.trim` (ASCII subset; the parser
only uses it to skip blank lines and to normalise a line before decoding). -/
def jsWs (c : Char) : Bool :=
  c = ' ' || c = '\n' || c = '\t' || c = '\r'

/-- Models `line.trim()`. -/
def jsTrim (s : String) : String :=
  String.mk (((s.data.dropWhile jsWs).reverse.dropWhile jsWs).reverse)

/-- `leadsWith pat l` tests whether `pat` is an initial segment of `l`. -/
def leadsWith : List Char → List Char → Bool
  | [], _ => true
  | _ :: _, [] => false
  | a :: as, b :: bs => decide (a = b) && leadsWith as bs

/-- `containsSeq pat l` tests whether `pat` occurs contiguously in `l`. -/
def containsSeq (pat : List Char) : List Char → Bool
  | [] => pat.isEmpty
  | c :: rest => leadsWith pat (c :: rest) || containsSeq pat rest

/-- Replace the first occurrence of `pat` in the list by `repl`: models
`String.prototype.replace` with a plain-string pattern (first match only). -/
def replaceFirstList (pat repl : List Char) : List Char → List Char
  | [] => if pat.isEmpty then repl else []
  | c :: rest =>
    if leadsWith pat (c :: rest) then repl ++ (c :: rest).drop pat.length
    else c :: replaceFirstList pat repl rest

/-- Models `s.replace(pat, repl)` (first occurrence only, as in JavaScript). -/
def jsReplaceFirst (s pat repl : String) : String :=
  String.mk (replaceFirstList pat.data repl.data s.data)

/-- `endsWithStr s suffix` models `s.endsWith(suffix)`. -/
def endsWithStr (s suffix : String) : Bool :=
  leadsWith suffix.data.reverse s.data.reverse

/-- ASCII lower-casing, as SQLite `LIKE` folds case for ASCII. -/
def asciiLower (c : Char) : Char :=
  if 'A' ≤ c ∧ c ≤ 'Z' then Char.ofNat (c.toNat + 32) else c

/-- Truthiness of a JavaScript `string | null | undefined` value:
`null`, `undefined` and the empty string are falsy. -/
def jsFalsyOptStr : Option String → Bool
  | none => true
  | some s => decide (s = "")

/-- Comparison of a possibly-`NaN` number with a constant:
`NaN < b` is false for every `b`, as in JavaScript. -/
def jsLtN : Option Int → Int → Bool
  | some x, b => decide (x < b)
  | none, _ => false

/-! ## Frecency scorer (src/frecency.ts) -/

def FOUR_HOURS : Int := 4 * 60 * 60 * 1000

def ONE_DAY : Int := 24 * 60 * 60 * 1000

def ONE_WEEK : Int := 7 * ONE_DAY

def ONE_MONTH : Int := 30 * ONE_DAY

/-- `calculateRecencyWeight(timestamp)` from src/frecency.ts.  `parseDate`
models `new Date(s).getTime()` (`none` = `NaN`, an invalid date); `now`
models `Date.now()`. -/
def calculateRecencyWeight (parseDate : String → Option Int) (now : Int)
    (timestamp : Option String) : Int :=
  if jsFalsyOptStr timestamp then 10
  else
    let thenMs : Option Int := timestamp.bind parseDate
    let age : Option Int :=
      match thenMs with
      | some t => some (now - t)
      | none => none
    if jsLtN age FOUR_HOURS then 100
    else if jsLtN age ONE_DAY then 70
    else if jsLtN age ONE_WEEK then 50
    else if jsLtN age ONE_MONTH then 30
    else 10

/-- `calculateFrecencyScore(frequency, mostRecent)` from src/frecency.ts.
`log10` models `Math.log10` on the integer argument `Math.max(1, frequency)`. -/
def calculateFrecencyScore (log10 : Int → Rat) (parseDate : String → Option Int)
    (now : Int) (frequency : Int) (mostRecent : Option String) : Rat :=
  (1 + log10 (max 1 frequency)) *
    ((calculateRecencyWeight parseDate now mostRecent : Int) : Rat)

/-! ## Log parser data model (sync.ts interfaces) -/

/-- The `input` object of a `ToolUse` event (`{ command?, description? }`). -/
structure ToolInput where
  command : Option String
  description : Option String
deriving DecidableEq

/-- A `tool_use` content item (`interface ToolUse`); `input` is optional at
runtime even though the TypeScript type declares it, and the code guards it
with `toolUse.input?.command`. -/
structure ToolUseData where
  id : String
  name : String
  input : Option ToolInput
deriving DecidableEq

/-- One element of `message.content` when that field is an array. -/
inductive ContentItem where
  | toolUse (tu : ToolUseData)
  | toolResult (tool_use_id : String) (content : Option String)
      (is_error : Option Bool)
  | other (typeName : String)
deriving DecidableEq

/-- The `toolUseResult` field of an entry (`{ stdout?, stderr?, interrupted? }`). -/
structure ToolUseResult where
  stdout : Option String
  stderr : Option String
  interrupted : Option Bool
deriving DecidableEq

/-- `message.content`: either a plain string or an array of items; the parser
only looks at array content (`Array.isArray` guard). -/
inductive MessageContent where
  | str (s : String)
  | items (l : List ContentItem)
deriving DecidableEq

/-- One JSONL line decoded to a structured record (`interface MessageEntry`). -/
structure MessageEntry where
  type : String
  content : MessageContent
  cwd : Option String
  sessionId : Option String
  timestamp : Option String
  toolUseResult : Option ToolUseResult
deriving DecidableEq

/-- One extracted command (`interface ParsedCommand`). -/
structure ParsedCommand where
  tool_use_id : String
  command : String
  description : Option String
  cwd : Option String
  stdout : Option String
  stderr : Option String
  is_error : Nat
  timestamp : Option String
  session_id : Option String
deriving DecidableEq

/-- Truthiness of `toolUse.input?.command`: there must be an input object
with a present, non-empty command string. -/
def inputCmdTruthy : Option ToolInput → Bool
  | some inp =>
    match inp.command with
    | some c => decide (c ≠ "")
    | none => false
  | none => false

/-- Value stored in the pending map: the tool call plus the ambient
`cwd` and `timestamp` of its entry. -/
structure PendingData where
  tu : ToolUseData
  cwd : Option String
  ts : Option String
deriving DecidableEq

/-- The pending map (`Map<string, {toolUse, cwd?, timestamp?}>`), as an
association list.  Only `get`, `set` and `delete` are used by the parser, so
only key membership and the stored value matter, not entry order. -/
abbrev PendingMap : Type := List (String × PendingData)

def pmSet (m : PendingMap) (k : String) (v : PendingData) : PendingMap :=
  (k, v) :: m.filter (fun e => decide (e.1 ≠ k))

def pmGet (m : PendingMap) (k : String) : Option PendingData :=
  (m.find? (fun e => decide (e.1 = k))).map (fun e => e.2)

def pmDel (m : PendingMap) (k : String) : PendingMap :=
  m.filter (fun e => decide (e.1 ≠ k))

def pmKeys (m : PendingMap) : List String := m.map (fun e => e.1)

/-- The record pushed for a matched tool result (body of the `if (pending)`
branch of `extractCommands`): `command` is `pending.toolUse.input.command!`,
`stdout` is `entry.toolUseResult?.stdout ?? toolResult.content ?? null`, and
so on, field by field. -/
def emitRecord (sess : Option String) (id : String) (content : Option String)
    (isErr : Option Bool) (tur : Option ToolUseResult) (p : PendingData) :
    ParsedCommand :=
  { tool_use_id := id
    command := (p.tu.input.bind (fun i => i.command)).getD ""
    description := p.tu.input.bind (fun i => i.description)
    cwd := p.cwd
    stdout :=
      match tur.bind (fun r => r.stdout) with
      | some s => some s
      | none => content
    stderr := tur.bind (fun r => r.stderr)
    is_error :=
      match isErr with
      | some true => 1
      | _ => 0
    timestamp := p.ts
    session_id := sess }

/-- Parser state: the emitted records so far and the pending map. -/
abbrev ParseState : Type := List ParsedCommand × PendingMap

/-- Processing of one decoded entry, exactly as the body of the `for (const
entry of entries)` loop in `extractCommands`: first the assistant block
(which registers qualifying Bash tool calls), then the user block (which
matches tool results against the pending map). -/
def processEntry (sess : Option String) (s : ParseState) (entry : MessageEntry) :
    ParseState :=
  let s1 : ParseState :=
    if entry.type = "assistant" then
      match entry.content with
      | MessageContent.items l =>
        (s.1, l.foldl (fun pm item =>
          match item with
          | ContentItem.toolUse tu =>
            if tu.name = "Bash" ∧ inputCmdTruthy tu.input then
              pmSet pm tu.id { tu := tu, cwd := entry.cwd, ts := entry.timestamp }
            else pm
          | _ => pm) s.2)
      | _ => s
    else s
  if entry.type = "user" then
    match entry.content with
    | MessageContent.items l =>
      l.foldl (fun st item =>
        match item with
        | ContentItem.toolResult tuid content isErr =>
          (match pmGet st.2 tuid with
           | some p =>
             (st.1 ++ [emitRecord sess tuid content isErr entry.toolUseResult p],
              pmDel st.2 tuid)
           | none => st)
        | _ => st) s1
    | _ => s1
  else s1

/-- `extractCommands(entries, sessionId)` from sync.ts. -/
def extractCommands (entries : List MessageEntry) (sess : Option String) :
    List ParsedCommand :=
  (entries.foldl (processEntry sess) ([], [])).1

/-- The line-decoding pass of `parseJsonlContent`: trim each line, skip blank
lines, try to decode, silently skip lines on which the decoder fails
(models the `try { entries.push(JSON.parse(trimmed)) } catch {}` loop). -/
def decodeLines (decode : String → Option MessageEntry) (lines : List String) :
    List MessageEntry :=
  lines.filterMap (fun line =>
    let trimmed := jsTrim line
    if trimmed = "" then none else decode trimmed)

/-- `parseJsonlContent(content, sessionId)` from sync.ts. -/
def parseJsonlContent (decode : String → Option MessageEntry) (content : String)
    (sess : Option String) : List ParsedCommand :=
  extractCommands (decodeLines decode (jsSplitNewline content)) sess

/-! ## Micro-event view of the parser

`processEntry` interleaves two inner loops.  For proofs the run is flattened
into a stream of primitive events: a registration of a pending Bash call, or
a tool result.  `extractCommands_eq_microRun` below shows the flattening is
exact. -/

/-- A primitive parser event. -/
inductive Micro where
  | reg (id : String) (tu : ToolUseData) (cwd : Option String)
      (ts : Option String)
  | res (id : String) (content : Option String) (isErr : Option Bool)
      (tur : Option ToolUseResult)
deriving DecidableEq

def microStep (sess : Option String) (s : ParseState) : Micro → ParseState
  | Micro.reg id tu cwd ts => (s.1, pmSet s.2 id { tu := tu, cwd := cwd, ts := ts })
  | Micro.res id content isErr tur =>
    match pmGet s.2 id with
    | some p => (s.1 ++ [emitRecord sess id content isErr tur p], pmDel s.2 id)
    | none => s

def microRun (sess : Option String) (evs : List Micro) (s : ParseState) :
    ParseState :=
  evs.foldl (microStep sess) s

/-- The primitive events contributed by one decoded entry. -/
def entryMicros (entry : MessageEntry) : List Micro :=
  (if entry.type = "assistant" then
    match entry.content with
    | MessageContent.items l =>
      l.filterMap (fun item =>
        match item with
        | ContentItem.toolUse tu =>
          if tu.name = "Bash" ∧ inputCmdTruthy tu.input then
            some (Micro.reg tu.id tu entry.cwd entry.timestamp)
          else none
        | _ => none)
    | _ => []
  else [])
  ++
  (if entry.type = "user" then
    match entry.content with
    | MessageContent.items l =>
      l.filterMap (fun item =>
        match item with
        | ContentItem.toolResult tuid content isErr =>
          some (Micro.res tuid content isErr entry.toolUseResult)
        | _ => none)
    | _ => []
  else [])

def micros (entries : List MessageEntry) : List Micro :=
  (entries.map entryMicros).flatten

/-- Correlation ids of registration events, in order. -/
def regIdsM : List Micro → List String
  | [] => []
  | Micro.reg id _ _ _ :: rest => id :: regIdsM rest
  | Micro.res _ _ _ _ :: rest => regIdsM rest

/-- Correlation ids of result events, in order. -/
def resIdsM : List Micro → List String
  | [] => []
  | Micro.reg _ _ _ _ :: rest => resIdsM rest
  | Micro.res id _ _ _ :: rest => id :: resIdsM rest

/-- `availM env evs` holds when every result event in `evs` is preceded (in
`evs`, or by a key of `env` available from the start) by a registration of
its correlation id. -/
def availM (env : List String) : List Micro → Bool
  | [] => true
  | Micro.reg id _ _ _ :: rest => availM (id :: env) rest
  | Micro.res id _ _ _ :: rest => decide (id ∈ env) && availM env rest

/-! ## Request/response scenarios (the input class of the parsing claims)

A scenario is a list of single-item entries: a shell tool-call line
(`sreq`) or a tool-result line (`sres`), matching the shape of the log
streams the specification's parsing claims quantify over. -/

inductive SEvent where
  | sreq (id : String) (cmd : String) (desc : Option String)
      (cwd : Option String) (ts : Option String)
  | sres (id : String) (content : Option String) (isErr : Option Bool)
      (tur : Option ToolUseResult)
deriving DecidableEq

/-- The decoded entry realised by one scenario event. -/
def seToEntry : SEvent → MessageEntry
  | SEvent.sreq id cmd desc cwd ts =>
    { type := "assistant"
      content := MessageContent.items
        [ContentItem.toolUse
          { id := id, name := "Bash"
            input := some { command := some cmd, description := desc } }]
      cwd := cwd
      sessionId := none
      timestamp := ts
      toolUseResult := none }
  | SEvent.sres id content isErr tur =>
    { type := "user"
      content := MessageContent.items [ContentItem.toolResult id content isErr]
      cwd := none
      sessionId := none
      timestamp := none
      toolUseResult := tur }

/-- The primitive event realised by one scenario event (for requests, under
the side condition that the command is non-empty). -/
def microOfS : SEvent → Micro
  | SEvent.sreq id cmd desc cwd ts =>
    Micro.reg id
      { id := id, name := "Bash"
        input := some { command := some cmd, description := desc } } cwd ts
  | SEvent.sres id content isErr tur => Micro.res id content isErr tur

def sReqIds : List SEvent → List String
  | [] => []
  | SEvent.sreq id _ _ _ _ :: rest => id :: sReqIds rest
  | SEvent.sres _ _ _ _ :: rest => sReqIds rest

def sResIds : List SEvent → List String
  | [] => []
  | SEvent.sreq _ _ _ _ _ :: rest => sResIds rest
  | SEvent.sres id _ _ _ :: rest => id :: sResIds rest

def sCmdsNonEmpty (evs : List SEvent) : Bool :=
  evs.all (fun ev =>
    match ev with
    | SEvent.sreq _ cmd _ _ _ => decide (cmd ≠ "")
    | _ => true)

/-- Well-formedness of a scenario of paired requests and responses: every
request command is non-empty, request ids and result ids are duplicate-free,
every result is preceded by the registration of its id, and requests and
results pair up (same id sets). -/
def scenarioWF (evs : List SEvent) : Bool :=
  sCmdsNonEmpty evs && (sReqIds evs).Nodup && (sResIds evs).Nodup
    && availM [] ((evs.map microOfS))
    && (sReqIds evs).all (fun i => decide (i ∈ sResIds evs))
    && (sResIds evs).all (fun i => decide (i ∈ sReqIds evs))

/-! ## Persistent store (db.ts) -/

/-- One row of the `commands` table (`interface Command`): the parsed fields
plus the surrogate `id INTEGER PRIMARY KEY`. -/
structure DbRow where
  id : Nat
  tool_use_id : String
  command : String
  description : Option String
  cwd : Option String
  stdout : Option String
  stderr : Option String
  is_error : Nat
  timestamp : Option String
  session_id : Option String
deriving DecidableEq

/-- The next rowid SQLite assigns for `INTEGER PRIMARY KEY`: one more than
the largest rowid in the table. -/
def nextRowId (t : List DbRow) : Nat :=
  (t.map (fun r => r.id)).foldl max 0 + 1

def rowOfParsed (i : Nat) (c : ParsedCommand) : DbRow :=
  { id := i
    tool_use_id := c.tool_use_id
    command := c.command
    description := c.description
    cwd := c.cwd
    stdout := c.stdout
    stderr := c.stderr
    is_error := c.is_error
    timestamp := c.timestamp
    session_id := c.session_id }

/-- `insertCommand(cmd)` from db.ts: `INSERT OR IGNORE` against the
`tool_use_id TEXT UNIQUE` constraint — the row is appended unless a row with
the same correlation id already exists, in which case nothing changes. -/
def insertCommandDb (c : ParsedCommand) (t : List DbRow) : List DbRow :=
  if t.any (fun r => decide (r.tool_use_id = c.tool_use_id)) then t
  else t ++ [rowOfParsed (nextRowId t) c]

/-- Number of stored rows carrying a given correlation id. -/
def countId (t : List DbRow) (i : String) : Nat :=
  (t.filter (fun r => decide (r.tool_use_id = i))).length

/-- One row of the `indexed_files` table (`interface IndexedFile`). -/
structure IndexedFileRow where
  file_path : String
  last_byte_offset : Nat
  last_modified : Int
deriving DecidableEq

/-- The whole store: the `commands` table and the `indexed_files` table. -/
structure DbState where
  commands : List DbRow
  indexedFiles : List IndexedFileRow
deriving DecidableEq

/-- `getIndexedFile(filePath)` from db.ts. -/
def getIndexedFileDb (db : DbState) (path : String) : Option IndexedFileRow :=
  db.indexedFiles.find? (fun r => decide (r.file_path = path))

/-- `updateIndexedFile(filePath, byteOffset, mtime)` from db.ts:
`INSERT OR REPLACE` keyed on `file_path` (only lookups by key are ever
performed, so row order in the table is immaterial). -/
def updateIndexedFileDb (db : DbState) (path : String) (off : Nat)
    (mtime : Int) : DbState :=
  { db with indexedFiles :=
      { file_path := path, last_byte_offset := off, last_modified := mtime } ::
        db.indexedFiles.filter (fun r => decide (r.file_path ≠ path)) }

def insertIntoDb (c : ParsedCommand) (db : DbState) : DbState :=
  { db with commands := insertCommandDb c db.commands }

/-! ## Query engine: plain search and highlighting (db.ts, format.ts) -/

/-- A compiled regular expression, abstractly: a match test (`re.test`) and a
replacement transform (`text.replace(re, repl)`). -/
structure CompiledRegex where
  test : String → Bool
  subst : String → String → String

/-- A regular-expression engine: `new RegExp(pattern, flags)` either yields a
compiled regex or throws (modelled by `none`, as for an invalid pattern). -/
abbrev RegexEngine : Type := String → String → Option CompiledRegex

/-- Truthiness of the optional `cwd` argument (`if (cwd)`). -/
def cwdTruthy : Option String → Bool
  | some w => decide (w ≠ "")
  | none => false

/-- The regex branch's per-row condition `(!cwd || cmd.cwd === cwd)`. -/
def cwdPass (rowCwd : Option String) (cwd : Option String) : Bool :=
  !cwdTruthy cwd || decide (rowCwd = cwd)

/-- `command LIKE ?` with pattern `%p%`: case-insensitive (ASCII) substring
containment.  (`%`/`_` wildcards inside the user pattern are not modelled;
the specification describes this branch as plain substring filtering.) -/
def likeSub (pattern command : String) : Bool :=
  containsSeq (pattern.data.map asciiLower) (command.data.map asciiLower)

/-- `searchCommands(pattern, useRegex, cwd)` from db.ts over the stored rows
(the `SELECT` result, newest first).  In regex mode `new RegExp(pattern,
"i")` is constructed with no guard, so a pattern the engine rejects escapes
as an exception (`Except.error`). -/
def searchCommandsRun (eng : RegexEngine) (pattern : String) (useRegex : Bool)
    (cwd : Option String) (rows : List DbRow) : Except String (List DbRow) :=
  if useRegex then
    match eng pattern ("i") with
    | none => Except.error ("SyntaxError: Invalid regular expression")
    | some re =>
      Except.ok (rows.filter (fun c => re.test c.command && cwdPass c.cwd cwd))
  else if cwdTruthy cwd then
    Except.ok (rows.filter (fun c =>
      likeSub pattern c.command && decide (c.cwd = cwd)))
  else
    Except.ok (rows.filter (fun c => likeSub pattern c.command))

/-- `escapeRegex(str)` from format.ts: backslash-escape every regex
metacharacter (the source uses one global regex replace; character-wise
mapping is equivalent for a character class). -/
def escapeRegexChar (c : Char) : List Char :=
  if c = '.' ∨ c = '*' ∨ c = '+' ∨ c = '?' ∨ c = '^' ∨ c = '$' ∨ c = '('
      ∨ c = ')' ∨ c = '|' ∨ c = '[' ∨ c = ']' ∨ c = '\\'
      ∨ c = Char.ofNat 123 ∨ c = Char.ofNat 125 then
    ['\\', c]
  else [c]

def escapeRegex (s : String) : String :=
  String.mk ((s.data.map escapeRegexChar).flatten)

/-- The pattern handed to `new RegExp` by `highlightMatch`. -/
def highlightPattern (pattern : String) (useRegex : Bool) : String :=
  "(" ++ (if useRegex then pattern else escapeRegex pattern) ++ ")"

def HIGHLIGHT_START : String := "\x1b[1;33m"

def HIGHLIGHT_END : String := "\x1b[0m\x1b[36m"

/-- `highlightMatch(text, pattern, useRegex)` from format.ts: pattern
compilation happens inside `try`, and on failure the text is returned
unchanged. -/
def highlightMatch (eng : RegexEngine) (text pattern : String)
    (useRegex : Bool) : String :=
  if pattern = "" then text
  else
    match eng (highlightPattern pattern useRegex) ("gi") with
    | none => text
    | some re => re.subst text (HIGHLIGHT_START ++ "$1" ++ HIGHLIGHT_END)

/-! ## Query engine: FTS relevance blending (db.ts, searchCommandsWithFrecencyFts) -/

/-- One grouped row of the step-3 query (`GROUP BY command`): the fields the
scoring loop reads (`command`, `frequency`, `most_recent`) plus the
display fields copied through unchanged. -/
structure GroupRow where
  command : String
  frequency : Int
  most_recent : Option String
  id : Nat
  tool_use_id : String
  description : Option String
  cwd : Option String
  stdout : Option String
  stderr : Option String
  is_error : Nat
  session_id : Option String
deriving DecidableEq

/-- A scored result (`interface CommandWithFrecency`). -/
structure CommandWithFrecency where
  id : Nat
  tool_use_id : String
  command : String
  description : Option String
  cwd : Option String
  stdout : Option String
  stderr : Option String
  is_error : Nat
  timestamp : Option String
  session_id : Option String
  frequency : Int
  frecency_score : Rat
deriving DecidableEq

def qmSet (m : List (String × Rat)) (k : String) (v : Rat) :
    List (String × Rat) :=
  (k, v) :: m.filter (fun e => decide (e.1 ≠ k))

/-- Step 2 of `searchCommandsWithFrecencyFts`: best (largest) BM25 score per
command, from the per-row matches. -/
def bm25Best (ms : List (String × Rat)) : List (String × Rat) :=
  ms.foldl (fun m cs =>
    match m.find? (fun e => decide (e.1 = cs.1)) with
    | none => qmSet m cs.1 cs.2
    | some e => if e.2 < cs.2 then qmSet m cs.1 cs.2 else m) []

def listMaxQ : List Rat → Rat
  | [] => 0
  | x :: xs => xs.foldl max x

def listMinQ : List Rat → Rat
  | [] => 0
  | x :: xs => xs.foldl min x

def bmapValues (bmap : List (String × Rat)) : List Rat :=
  bmap.map (fun e => e.2)

/-- `minBm25` = `Math.min(...bm25Scores)`. -/
def minBOf (bmap : List (String × Rat)) : Rat := listMinQ (bmapValues bmap)

/-- `bm25Range` = `maxBm25 - minBm25 || 1` (a zero range defaults to 1). -/
def rangeBOf (bmap : List (String × Rat)) : Rat :=
  if listMaxQ (bmapValues bmap) - minBOf bmap = 0 then 1
  else listMaxQ (bmapValues bmap) - minBOf bmap

/-- `commandBm25Map.get(row.command) ?? minBm25`. -/
def bOf (bmap : List (String × Rat)) (cmd : String) : Rat :=
  match bmap.find? (fun e => decide (e.1 = cmd)) with
  | some e => e.2
  | none => minBOf bmap

/-- `normalizedBm25` for one command: min-max normalisation of its best
BM25 score across the candidate set. -/
def normOf (bmap : List (String × Rat)) (cmd : String) : Rat :=
  (bOf bmap cmd - minBOf bmap) / rangeBOf bmap

/-- The scoring loop of `searchCommandsWithFrecencyFts` (lines 739-770 of the
FTS revision of db.ts): each grouped row gets
`frecencyScore * (0.5 + normalizedBm25)`.  The final sort by descending
score only permutes the list and is not modelled. -/
def ftsFinalScores (log10 : Int → Rat) (parseDate : String → Option Int)
    (now : Int) (bmap : List (String × Rat)) (rows : List GroupRow) :
    List CommandWithFrecency :=
  rows.map (fun row =>
    { id := row.id
      tool_use_id := row.tool_use_id
      command := row.command
      description := row.description
      cwd := row.cwd
      stdout := row.stdout
      stderr := row.stderr
      is_error := row.is_error
      timestamp := row.most_recent
      session_id := row.session_id
      frequency := row.frequency
      frecency_score :=
        calculateFrecencyScore log10 parseDate now row.frequency row.most_recent
          * (1/2 + normOf bmap row.command) })

/-- `searchCommandsWithFrecencyRegex(database, pattern, cwd)` from db.ts
(lines 181-239 / 599-657 of the two revisions, identical in both): the input
`rows` is the grouped `GROUP BY command` query result (the optional cwd
filter happens inside that query), after which `new RegExp(pattern, "i")`
is constructed with no guard — a pattern the engine rejects escapes as an
exception (`Except.error`) — and otherwise each matching group is scored
with `calculateFrecencyScore`.  `searchCommandsWithFrecency` with
`useRegex = true` delegates to exactly this branch (db.ts:173-174 /
591-592).  The final sort by descending score only permutes the list and is
not modelled. -/
def searchCommandsWithFrecencyRegexRun (log10 : Int → Rat)
    (parseDate : String → Option Int) (now : Int) (eng : RegexEngine)
    (pattern : String) (rows : List GroupRow) :
    Except String (List CommandWithFrecency) :=
  match eng pattern ("i") with
  | none => Except.error ("SyntaxError: Invalid regular expression")
  | some re =>
    Except.ok ((rows.filter (fun row => re.test row.command)).map (fun row =>
      { id := row.id
        tool_use_id := row.tool_use_id
        command := row.command
        description := row.description
        cwd := row.cwd
        stdout := row.stdout
        stderr := row.stderr
        is_error := row.is_error
        timestamp := row.most_recent
        session_id := row.session_id
        frequency := row.frequency
        frecency_score :=
          calculateFrecencyScore log10 parseDate now row.frequency
            row.most_recent }))

/-! ## Incremental indexer (sync.ts) -/

/-- The byte-walking loop of `indexFile`: find the index of the line in which
byte offset `off` falls, walking lines and adding `byteLength(line) + 1` per
line.  If the loop runs off the end without the `break` firing, `startLine`
keeps its initial value 0, exactly as in the source. -/
def startLineWalk (off : Nat) : List String → Nat → Nat → Nat
  | [], _, _ => 0
  | l :: rest, i, bytePos =>
    let lineBytes := utf8Len l + 1
    if off < bytePos + lineBytes then i
    else startLineWalk off rest (i + 1) (bytePos + lineBytes)

/-- `startLine` as computed by `indexFile(filePath, startOffset)`: the walk
runs only when `startOffset > 0`. -/
def startLineOf (content : String) (startOffset : Nat) : Nat :=
  if 0 < startOffset then startLineWalk startOffset (jsSplitNewline content) 0 0
  else 0

/-- `newContent = lines.slice(startLine).join("\n")`. -/
def indexFileSuffix (content : String) (startOffset : Nat) : String :=
  joinNL ((jsSplitNewline content).drop (startLineOf content startOffset))

/-- `sessionId = filePath.split("/").pop()?.replace(".jsonl", "") ?? null`:
the base name with the FIRST occurrence of ".jsonl" removed. -/
def sessionIdOf (path : String) : Option String :=
  ((splitOnChar ('/') path.data).map String.mk).getLast?.map
    (fun base => jsReplaceFirst base (".jsonl") (""))

/-- The commands parsed by `indexFile(filePath, startOffset)` before they are
inserted. -/
def indexFileCommands (decode : String → Option MessageEntry) (path : String)
    (content : String) (startOffset : Nat) : List ParsedCommand :=
  parseJsonlContent decode (indexFileSuffix content startOffset)
    (sessionIdOf path)

/-- `indexFile(filePath, startOffset, db)` from sync.ts: parse the suffix,
insert every command, return how many commands were parsed (not how many
rows were new — `INSERT OR IGNORE` duplicates still count). -/
def indexFileDb (decode : String → Option MessageEntry) (path : String)
    (content : String) (startOffset : Nat) (db : DbState) : Nat × DbState :=
  let cmds := indexFileCommands decode path content startOffset
  (cmds.length, cmds.foldl (fun d c => insertIntoDb c d) db)

/-- One source log file: name, content and modification time; its size is the
UTF-8 byte length of its content. -/
structure SFile where
  name : String
  content : String
  mtime : Int
deriving DecidableEq

def fileSize (f : SFile) : Nat := utf8Len f.content

/-- One entry of the projects root directory: a project subdirectory with its
files, or a stray plain file (ignored by `sync`, which checks
`stat.isDirectory()`). -/
inductive RootEntry where
  | dir (name : String) (files : List SFile)
  | file (name : String)
deriving DecidableEq

/-- The filesystem as `sync` observes it: whether the projects root exists,
and its entries.  (Per-file read errors, absorbed by the per-file `try` in
the source, are not modelled: reads are total here.) -/
structure FS where
  rootExists : Bool
  entries : List RootEntry
deriving DecidableEq

/-- `interface SyncResult` (filesScanned, newCommands, errors). -/
structure SyncResult where
  filesScanned : Nat
  newCommands : Nat
  errors : List String
deriving DecidableEq

/-- The `.jsonl` file enumeration of `sync`: immediate subdirectories of the
projects root only, each contributing its files with the `.jsonl` suffix,
paired with their full path `projectsDir/dir/file`. -/
def collectJsonl (pd : String) (entries : List RootEntry) :
    List (String × SFile) :=
  (entries.map (fun e =>
    match e with
    | RootEntry.dir dname files =>
      (files.filter (fun f => endsWithStr f.name (".jsonl"))).map
        (fun f => (pd ++ "/" ++ dname ++ "/" ++ f.name, f))
    | RootEntry.file _ => [])).flatten

/-- The body of the `for (const filePath of jsonlFiles)` loop of `sync`:
count the file, skip it when not forced and the checkpoint already covers
the current size, otherwise parse from the checkpoint offset (0 under
`force`), insert, and move the checkpoint to the current size and mtime. -/
def syncFileStep (decode : String → Option MessageEntry) (force : Bool)
    (st : SyncResult × DbState) (pf : String × SFile) : SyncResult × DbState :=
  let result :=
    { st.1 with filesScanned := st.1.filesScanned + 1 }
  let db := st.2
  let size := fileSize pf.2
  let indexed := getIndexedFileDb db pf.1
  if !force && (match indexed with
      | some ix => decide (size ≤ ix.last_byte_offset)
      | none => false) then
    (result, db)
  else
    let startOffset : Nat :=
      if force then 0
      else
        match indexed with
        | some ix => ix.last_byte_offset
        | none => 0
    let parsed := indexFileDb decode pf.1 pf.2.content startOffset db
    ({ result with newCommands := result.newCommands + parsed.1 },
     updateIndexedFileDb parsed.2 pf.1 size pf.2.mtime)

/-- `sync(options)` from sync.ts, over the modelled filesystem. -/
def sync (decode : String → Option MessageEntry) (pd : String) (fs : FS)
    (force : Bool) (db : DbState) : SyncResult × DbState :=
  if !fs.rootExists then
    ({ filesScanned := 0, newCommands := 0,
       errors := [("Claude projects directory not found: " ++ pd)] }, db)
  else
    (collectJsonl pd fs.entries).foldl (syncFileStep decode force)
      ({ filesScanned := 0, newCommands := 0, errors := [] }, db)

/-! ## Spec-side definitions for refinement comparison -/

/-- Byte position at which line `i` starts (each earlier line contributes its
UTF-8 byte length plus one for the newline). -/
def lineStartPos (lines : List String) (i : Nat) : Nat :=
  ((lines.take i).map (fun l => utf8Len l + 1)).sum

/-- Total byte extent covered by the walk (every line counted with a
trailing newline, as the source's `+ 1` does). -/
def totalBytesOf (content : String) : Nat :=
  ((jsSplitNewline content).map (fun l => utf8Len l + 1)).sum

/-- Modelled from the spec: the index of "the first line boundary at or after
that byte offset" — the least `i` whose line-start position is at least the
offset (`none` when the offset is beyond every boundary).  This is the
spec's description of where `indexFile` starts parsing, to be compared with
`startLineOf`. -/
def firstBoundaryIdx (lines : List String) (off : Nat) : Option Nat :=
  (List.range (lines.length + 1)).find? (fun i => decide (off ≤ lineStartPos lines i))

/-- Modelled from the spec: the parsed suffix if parsing started at the first
line boundary at or after the offset. -/
def specSuffixFromBoundary (content : String) (off : Nat) : Option String :=
  (firstBoundaryIdx (jsSplitNewline content) off).map
    (fun i => joinNL ((jsSplitNewline content).drop i))

/-- Bounded check that the earliest occurrence of `pat` in `stem ++ pat` is
the trailing one (used to state when first-occurrence replacement agrees
with extension stripping). -/
def onlyTrailingOcc (stem pat : String) : Bool :=
  (List.range stem.data.length).all
    (fun k => !leadsWith pat.data ((stem.data ++ pat.data).drop k))

/-! ## Concrete instances used by witnesses and counterexamples -/

/-- A `Math.log10` interpretation that is identically zero (any
interpretation works for the structural claims). -/
def zeroLog : Int → Rat := fun _ => 0

/-- A date parser sending every string to epoch 0. -/
def constParse : String → Option Int := fun _ => some 0

/-- A date parser for which every string is an invalid date (`NaN`). -/
def noneParse : String → Option Int := fun _ => none

/-- A JSON decoder that decodes nothing (every line malformed). -/
def noneDecode : String → Option MessageEntry := fun _ => none

/-- Decoder realising a two-line request/response session: the line `R1` is
the Bash call `ls` with id `t1`, the line `S1` is its result; every other
line is malformed. -/
def exDecode : String → Option MessageEntry := fun s =>
  if s = "R1" then some (seToEntry (SEvent.sreq ("t1") ("ls") none none none))
  else if s = "S1" then
    some (seToEntry (SEvent.sres ("t1") (some ("ok")) none none))
  else none

def exScenario : List SEvent :=
  [SEvent.sreq ("t1") ("ls") none none none,
   SEvent.sres ("t1") (some ("ok")) none none]

def reqEntry (id cmd : String) : MessageEntry :=
  seToEntry (SEvent.sreq id cmd none none none)

def resEntry (id : String) : MessageEntry :=
  seToEntry (SEvent.sres id (some ("out")) none none)

/-- A stream that registers the same correlation id twice, with a result
after each registration. -/
def reRegEntries : List MessageEntry :=
  [reqEntry ("t1") ("ls"), resEntry ("t1"),
   reqEntry ("t1") ("pwd"), resEntry ("t1")]

/-- An engine that rejects the pattern `(` — as `new RegExp("(")` throws a
`SyntaxError` in JavaScript — and accepts everything else. -/
def parenRejectEngine : RegexEngine := fun p _ =>
  if p = "(" then none
  else some { test := fun _ => true, subst := fun t _ => t }

/-- An engine that rejects every pattern. -/
def noneEngine : RegexEngine := fun _ _ => none

def exRow : DbRow :=
  { id := 1, tool_use_id := "t1", command := "ls -la", description := none
    cwd := none, stdout := none, stderr := none, is_error := 0
    timestamp := none, session_id := none }

def exParsed : ParsedCommand :=
  { tool_use_id := "t1", command := "ls", description := none, cwd := none
    stdout := none, stderr := none, is_error := 0, timestamp := none
    session_id := none }

def exParsed2 : ParsedCommand :=
  { tool_use_id := "t1", command := "pwd", description := none, cwd := none
    stdout := none, stderr := none, is_error := 0, timestamp := none
    session_id := none }

def exFsFile : SFile := { name := "s.jsonl", content := "", mtime := 0 }

def exFs : FS := { rootExists := true, entries := [RootEntry.dir ("proj") [exFsFile]] }

def emptyDb : DbState := { commands := [], indexedFiles := [] }

def exBmap : List (String × Rat) := [(("a" : String), (0 : Rat)), (("b"), (1))]

def exGroupRow : GroupRow :=
  { command := "a", frequency := 1, most_recent := none, id := 1
    tool_use_id := "t1", description := none, cwd := none, stdout := none
    stderr := none, is_error := 0, session_id := none }

/-- Whether a primitive event registers correlation id `i`. -/
def isRegFor (i : String) : Micro → Bool
  | Micro.reg j _ _ _ => decide (j = i)
  | Micro.res _ _ _ _ => false

/-- The content items of an entry (none for plain-string content). -/
def entryItems (e : MessageEntry) : List ContentItem :=
  match e.content with
  | MessageContent.items l => l
  | MessageContent.str _ => []

/-- `noRegEntry i e`: every tool-call item with correlation id `i` inside `e`
is for a tool other than the shell tool `Bash`, or has an empty or absent
command — so nothing in `e` can register `i` as pending. -/
def noRegEntry (i : String) (e : MessageEntry) : Bool :=
  (entryItems e).all (fun item =>
    match item with
    | ContentItem.toolUse tu =>
      !(decide (tu.id = i)
        && (decide (tu.name = "Bash") && inputCmdTruthy tu.input))
    | _ => true)

/-! ## Theorems: frecency scorer -/

/-- The age-bucket step function only takes the five tabulated values. -/
theorem recencyStep_range (a : Option Int) :
    (if jsLtN a FOUR_HOURS then (100 : Int)
      else if jsLtN a ONE_DAY then 70
      else if jsLtN a ONE_WEEK then 50
      else if jsLtN a ONE_MONTH then 30
      else 10) = 10
    ∨ (if jsLtN a FOUR_HOURS then (100 : Int)
      else if jsLtN a ONE_DAY then 70
      else if jsLtN a ONE_WEEK then 50
      else if jsLtN a ONE_MONTH then 30
      else 10) = 30
    ∨ (if jsLtN a FOUR_HOURS then (100 : Int)
      else if jsLtN a ONE_DAY then 70
      else if jsLtN a ONE_WEEK then 50
      else if jsLtN a ONE_MONTH then 30
      else 10) = 50
    ∨ (if jsLtN a FOUR_HOURS then (100 : Int)
      else if jsLtN a ONE_DAY then 70
      else if jsLtN a ONE_WEEK then 50
      else if jsLtN a ONE_MONTH then 30
      else 10) = 70
    ∨ (if jsLtN a FOUR_HOURS then (100 : Int)
      else if jsLtN a ONE_DAY then 70
      else if jsLtN a ONE_WEEK then 50
      else if jsLtN a ONE_MONTH then 30
      else 10) = 100 := by
  split_ifs <;> simp

/-- Recency weight of a present, non-empty, parseable timestamp, written as
the age-bucket step function. -/
theorem recencyWeight_some_eq (parseDate : String → Option Int) (now : Int)
    (s : String) (t : Int) (hs : s ≠ "") (hp : parseDate s = some t) :
    calculateRecencyWeight parseDate now (some s) =
      if now - t < FOUR_HOURS then 100
      else if now - t < ONE_DAY then 70
      else if now - t < ONE_WEEK then 50
      else if now - t < ONE_MONTH then 30
      else 10 := by
  simp [calculateRecencyWeight, jsFalsyOptStr, jsLtN, hs, hp]

/-- C1: for every frequency and timestamp argument,
`calculateFrecencyScore(f, t)` is `(1 + log10(max(1, f)))` times
`calculateRecencyWeight(t)`, where the recency weight is 10 for an absent
timestamp, 100 below 4 hours of age, 70 from 4 hours up to 1 day, 50 from
1 day up to 1 week, 30 from 1 week up to 1 month (30 days), and 10 from
1 month on; both functions are pure and total. -/
theorem c1_frecency_formula (log10 : Int → Rat)
    (parseDate : String → Option Int) (now : Int) (f : Int)
    (ts : Option String) :
    calculateFrecencyScore log10 parseDate now f ts
        = (1 + log10 (max 1 f))
          * ((calculateRecencyWeight parseDate now ts : Int) : Rat)
    ∧ calculateRecencyWeight parseDate now none = 10
    ∧ (∀ s t, ts = some s → s ≠ "" → parseDate s = some t →
        ((now - t < FOUR_HOURS →
            calculateRecencyWeight parseDate now ts = 100)
        ∧ (FOUR_HOURS ≤ now - t → now - t < ONE_DAY →
            calculateRecencyWeight parseDate now ts = 70)
        ∧ (ONE_DAY ≤ now - t → now - t < ONE_WEEK →
            calculateRecencyWeight parseDate now ts = 50)
        ∧ (ONE_WEEK ≤ now - t → now - t < ONE_MONTH →
            calculateRecencyWeight parseDate now ts = 30)
        ∧ (ONE_MONTH ≤ now - t →
            calculateRecencyWeight parseDate now ts = 10))) := by
  refine ⟨rfl, rfl, ?_⟩
  intro s t hts hs hp
  subst hts
  rw [recencyWeight_some_eq parseDate now s t hs hp]
  simp only [FOUR_HOURS, ONE_DAY, ONE_WEEK, ONE_MONTH]
  refine ⟨?_, ?_, ?_, ?_, ?_⟩ <;> intros <;>
    first
      | (rw [if_pos (by omega)])
      | (rw [if_neg (by omega), if_pos (by omega)])
      | (rw [if_neg (by omega), if_neg (by omega), if_pos (by omega)])
      | (rw [if_neg (by omega), if_neg (by omega), if_neg (by omega),
          if_pos (by omega)])
      | (rw [if_neg (by omega), if_neg (by omega), if_neg (by omega),
          if_neg (by omega)])

/-- Witness for C1 at a concrete input in the under-4-hours bucket. -/
theorem c1_frecency_formula_witness :
    calculateRecencyWeight constParse 0 (some ("x")) = 100
    ∧ calculateFrecencyScore zeroLog constParse 0 3 (some ("x"))
        = (1 + zeroLog (max 1 3)) * ((100 : Int) : Rat) := by
  have h := c1_frecency_formula zeroLog constParse 0 3 (some ("x"))
  have h100 : calculateRecencyWeight constParse 0 (some ("x")) = 100 :=
    (h.2.2 ("x") 0 rfl (by decide) rfl).1 (by decide)
  exact ⟨h100, by rw [h.1, h100]⟩

/-- C10: `calculateRecencyWeight` is total with range inside
{10, 30, 50, 70, 100}; an absent timestamp gives 10, an unparseable
timestamp gives 10 (every age comparison against `NaN` is false, so control
falls through to the final branch), and a future timestamp (negative age)
gives 100. -/
theorem c10_recency_total (parseDate : String → Option Int) (now : Int)
    (ts : Option String) :
    (calculateRecencyWeight parseDate now ts = 10
      ∨ calculateRecencyWeight parseDate now ts = 30
      ∨ calculateRecencyWeight parseDate now ts = 50
      ∨ calculateRecencyWeight parseDate now ts = 70
      ∨ calculateRecencyWeight parseDate now ts = 100)
    ∧ (ts = none → calculateRecencyWeight parseDate now ts = 10)
    ∧ (∀ s, ts = some s → parseDate s = none →
        calculateRecencyWeight parseDate now ts = 10)
    ∧ (∀ s t, ts = some s → s ≠ "" → parseDate s = some t → now - t < 0 →
        calculateRecencyWeight parseDate now ts = 100) := by
  refine ⟨?_, ?_, ?_, ?_⟩
  · have hr := recencyStep_range
      (match ts.bind parseDate with
       | some t => some (now - t)
       | none => none)
    by_cases h0 : jsFalsyOptStr ts = true
    · simp [calculateRecencyWeight, h0]
    · simpa [calculateRecencyWeight, h0] using hr
  · intro h; subst h; rfl
  · intro s hts hp
    subst hts
    by_cases hs : s = ""
    · subst hs; rfl
    · simp [calculateRecencyWeight, jsFalsyOptStr, jsLtN, hs, hp]
  · intro s t hts hs hp hneg
    subst hts
    rw [recencyWeight_some_eq parseDate now s t hs hp]
    rw [if_pos (by simp only [FOUR_HOURS]; omega)]

/-- Witness for C10: an unparseable timestamp gives weight 10, a future
timestamp gives weight 100. -/
theorem c10_recency_total_witness :
    calculateRecencyWeight noneParse 5 (some ("future")) = 10
    ∧ calculateRecencyWeight constParse (-3) (some ("f")) = 100 :=
  ⟨(c10_recency_total noneParse 5 (some ("future"))).2.2.1 ("future") rfl rfl,
   (c10_recency_total constParse (-3) (some ("f"))).2.2.2 ("f") 0 rfl
     (by decide) rfl (by decide)⟩

/-! ## Theorems: idempotent ingest (C6) -/

theorem countId_append (t1 t2 : List DbRow) (i : String) :
    countId (t1 ++ t2) i = countId t1 i + countId t2 i := by
  simp [countId, List.filter_append]

theorem countId_eq_zero_iff (t : List DbRow) (i : String) :
    countId t i = 0
      ↔ t.any (fun r => decide (r.tool_use_id = i)) = false := by
  simp [countId, List.length_eq_zero, List.filter_eq_nil_iff, List.any_eq_false]

theorem insertCommandDb_noop (c : ParsedCommand) (t : List DbRow)
    (h : t.any (fun r => decide (r.tool_use_id = c.tool_use_id)) = true) :
    insertCommandDb c t = t := by
  unfold insertCommandDb; rw [if_pos h]

theorem insertCommandDb_any_self (c : ParsedCommand) (t : List DbRow) :
    (insertCommandDb c t).any
      (fun r => decide (r.tool_use_id = c.tool_use_id)) = true := by
  unfold insertCommandDb
  split_ifs with h
  · exact h
  · simp [rowOfParsed]

/-- C6: inserting a record with an already-present correlation id is a no-op
that changes no stored row; on a store not yet holding the id, one insert
leaves exactly one row with that id; and at-most-one-row-per-id is
preserved by every insert. -/
theorem c6_insert_idempotent (t : List DbRow) (c c2 : ParsedCommand)
    (hid : c2.tool_use_id = c.tool_use_id) :
    insertCommandDb c2 (insertCommandDb c t) = insertCommandDb c t
    ∧ (countId t c.tool_use_id = 0 →
        countId (insertCommandDb c t) c.tool_use_id = 1)
    ∧ (∀ i, countId t i ≤ 1 → countId (insertCommandDb c t) i ≤ 1) := by
  refine ⟨?_, ?_, ?_⟩
  · exact insertCommandDb_noop c2 (insertCommandDb c t)
      (by rw [hid]; exact insertCommandDb_any_self c t)
  · intro h0
    have hany : t.any (fun r => decide (r.tool_use_id = c.tool_use_id)) = false :=
      (countId_eq_zero_iff t _).mp h0
    unfold insertCommandDb
    rw [if_neg (by simp [hany])]
    rw [countId_append, h0]
    simp [countId, rowOfParsed]
  · intro i hle
    by_cases hany : t.any (fun r => decide (r.tool_use_id = c.tool_use_id)) = true
    · rw [insertCommandDb_noop c t hany]; exact hle
    · unfold insertCommandDb
      rw [if_neg hany]
      rw [countId_append]
      by_cases hi : c.tool_use_id = i
      · have h0 : countId t i = 0 := by
          subst hi
          exact (countId_eq_zero_iff t _).mpr
            (by simpa using hany)
        have h1 : countId [rowOfParsed (nextRowId t) c] i = 1 := by
          simp [countId, rowOfParsed, hi]
        omega
      · have h1 : countId [rowOfParsed (nextRowId t) c] i = 0 := by
          simp [countId, rowOfParsed, hi]
        omega
/-- Witness for C6 on the empty store. -/
theorem c6_insert_idempotent_witness :
    insertCommandDb exParsed2 (insertCommandDb exParsed [])
        = insertCommandDb exParsed []
    ∧ countId (insertCommandDb exParsed []) ("t1") = 1 := by
  have h := c6_insert_idempotent [] exParsed exParsed2 rfl
  exact ⟨h.1, h.2.1 (by decide)⟩

/-! ## Theorems: relevance blending (C7) -/

theorem foldlMin_le_init (xs : List Rat) (a : Rat) : xs.foldl min a ≤ a := by
  induction xs generalizing a with
  | nil => exact le_refl a
  | cons x xs ih => exact le_trans (ih (min a x)) (min_le_left a x)

theorem foldlMin_le_mem (xs : List Rat) (a v : Rat) (hv : v ∈ xs) :
    xs.foldl min a ≤ v := by
  induction xs generalizing a with
  | nil => cases hv
  | cons x xs ih =>
    rcases List.mem_cons.mp hv with h | h
    · subst h
      exact le_trans (foldlMin_le_init xs (min a v)) (min_le_right a v)
    · exact ih (min a x) h

theorem init_le_foldlMax (xs : List Rat) (a : Rat) : a ≤ xs.foldl max a := by
  induction xs generalizing a with
  | nil => exact le_refl a
  | cons x xs ih => exact le_trans (le_max_left a x) (ih (max a x))

theorem mem_le_foldlMax (xs : List Rat) (a v : Rat) (hv : v ∈ xs) :
    v ≤ xs.foldl max a := by
  induction xs generalizing a with
  | nil => cases hv
  | cons x xs ih =>
    rcases List.mem_cons.mp hv with h | h
    · subst h
      exact le_trans (le_max_right a v) (init_le_foldlMax xs (max a v))
    · exact ih (max a x) h

theorem listMinQ_le_mem (vs : List Rat) (v : Rat) (hv : v ∈ vs) :
    listMinQ vs ≤ v := by
  cases vs with
  | nil => cases hv
  | cons x xs =>
    rcases List.mem_cons.mp hv with h | h
    · subst h; exact foldlMin_le_init xs v
    · exact foldlMin_le_mem xs x v h

theorem mem_le_listMaxQ (vs : List Rat) (v : Rat) (hv : v ∈ vs) :
    v ≤ listMaxQ vs := by
  cases vs with
  | nil => cases hv
  | cons x xs =>
    rcases List.mem_cons.mp hv with h | h
    · subst h; exact init_le_foldlMax xs v
    · exact mem_le_foldlMax xs x v h

theorem bOf_mem_or_min (bmap : List (String × Rat)) (cmd : String) :
    bOf bmap cmd ∈ bmapValues bmap ∨ bOf bmap cmd = minBOf bmap := by
  unfold bOf
  cases hf : bmap.find? (fun e => decide (e.1 = cmd)) with
  | none => right; rfl
  | some e =>
    left
    exact List.mem_map_of_mem (fun e => e.2) (List.mem_of_find?_eq_some hf)

/-- Min-max normalisation of a best-BM25 score lands in the unit interval,
also when the range defaults to 1 because all candidates score equally. -/
theorem normOf_nonneg_le_one (bmap : List (String × Rat)) (h : bmap ≠ [])
    (cmd : String) : (0 : Rat) ≤ normOf bmap cmd ∧ normOf bmap cmd ≤ 1 := by
  obtain ⟨p, l, hbl⟩ : ∃ p l, bmap = p :: l := by
    cases bmap with
    | nil => exact absurd rfl h
    | cons p l => exact ⟨p, l, rfl⟩
  have hpv : p.2 ∈ bmapValues bmap := by
    rw [hbl]; simp [bmapValues]
  have hminmax : minBOf bmap ≤ listMaxQ (bmapValues bmap) :=
    le_trans (listMinQ_le_mem _ _ hpv) (mem_le_listMaxQ _ _ hpv)
  have hbmem : minBOf bmap ≤ bOf bmap cmd ∧ bOf bmap cmd ≤ listMaxQ (bmapValues bmap) := by
    rcases bOf_mem_or_min bmap cmd with hm | hm
    · exact ⟨listMinQ_le_mem _ _ hm, mem_le_listMaxQ _ _ hm⟩
    · rw [hm]; exact ⟨le_refl _, hminmax⟩
  unfold normOf rangeBOf
  by_cases hd : listMaxQ (bmapValues bmap) - minBOf bmap = 0
  · have hbeq : bOf bmap cmd = minBOf bmap := by
      have := hbmem.1
      have := hbmem.2
      linarith
    rw [if_pos hd, hbeq]
    norm_num
  · have hdpos : 0 < listMaxQ (bmapValues bmap) - minBOf bmap := by
      rcases lt_or_eq_of_le (by linarith [hminmax] :
          (0 : Rat) ≤ listMaxQ (bmapValues bmap) - minBOf bmap) with hlt | heq
      · exact hlt
      · exact absurd heq.symm hd
    rw [if_neg hd]
    constructor
    · exact div_nonneg (by linarith [hbmem.1]) (le_of_lt hdpos)
    · rw [div_le_one hdpos]
      linarith [hbmem.2]

/-- C7: with a non-empty candidate set, every scored result's final score is
its frecency score times `0.5 + normalizedBm25`, where the normalised
relevance lies in [0, 1] (min-max normalisation, divisor defaulting to 1
when all candidates score equally), so the multiplier lies in [0.5, 1.5]:
relevance never zeroes frecency out and never more than doubles it. -/
theorem c7_fts_blend (log10 : Int → Rat) (parseDate : String → Option Int)
    (now : Int) (bmap : List (String × Rat)) (rows : List GroupRow)
    (h : bmap ≠ []) :
    (∀ r ∈ ftsFinalScores log10 parseDate now bmap rows,
      ∃ row ∈ rows, r.command = row.command
        ∧ r.frecency_score
            = calculateFrecencyScore log10 parseDate now row.frequency
                row.most_recent * (1/2 + normOf bmap row.command))
    ∧ (∀ cmd, (0 : Rat) ≤ normOf bmap cmd ∧ normOf bmap cmd ≤ 1)
    ∧ (∀ cmd, (1/2 : Rat) ≤ 1/2 + normOf bmap cmd
        ∧ 1/2 + normOf bmap cmd ≤ 3/2) := by
  refine ⟨?_, ?_, ?_⟩
  · intro r hr
    unfold ftsFinalScores at hr
    obtain ⟨row, hrow, heq⟩ := List.mem_map.mp hr
    refine ⟨row, hrow, ?_, ?_⟩
    · rw [← heq]
    · rw [← heq]
  · intro cmd; exact normOf_nonneg_le_one bmap h cmd
  · intro cmd
    have hb := normOf_nonneg_le_one bmap h cmd
    constructor
    · linarith [hb.1]
    · linarith [hb.2]

/-- Witness for C7 on a two-candidate set with distinct scores. -/
theorem c7_fts_blend_witness :
    ((1/2 : Rat) ≤ 1/2 + normOf exBmap ("a")
      ∧ 1/2 + normOf exBmap ("a") ≤ 3/2)
    ∧ (∀ r ∈ ftsFinalScores zeroLog noneParse 0 exBmap [exGroupRow],
        ∃ row ∈ [exGroupRow], r.command = row.command
          ∧ r.frecency_score
              = calculateFrecencyScore zeroLog noneParse 0 row.frequency
                  row.most_recent * (1/2 + normOf exBmap row.command)) := by
  have h := c7_fts_blend zeroLog noneParse 0 exBmap [exGroupRow] (by decide)
  exact ⟨h.2.2 ("a"), h.1⟩

/-! ## Theorems: invalid search patterns (C4) -/

/-- C4 counterexample: with an engine that rejects the pattern `(` (as
JavaScript's `new RegExp("(")` does, throwing a `SyntaxError`), regex-mode
`searchCommands` and the regex branch of `searchCommandsWithFrecency` both
propagate the compile failure to their caller instead of degrading
gracefully — refuting the claim that retrieval with the regex toggle never
raises. -/
theorem c4_counterexample :
    searchCommandsRun parenRejectEngine ("(") true none [exRow]
        = Except.error ("SyntaxError: Invalid regular expression")
    ∧ searchCommandsWithFrecencyRegexRun zeroLog noneParse 0
        parenRejectEngine ("(") [exGroupRow]
        = Except.error ("SyntaxError: Invalid regular expression") :=
  ⟨rfl, rfl⟩

/-- C4 (amended): `highlightMatch` compiles inside a guard and returns the
text unchanged when compilation fails, and non-regex retrieval never
raises; but both regex-mode retrievals — `searchCommands` and
`searchCommandsWithFrecency` (whose `useRegex = true` path is
`searchCommandsWithFrecencyRegex`) — construct the pattern unguarded, so
each returns normally exactly when the engine accepts the pattern and
propagates the compile exception otherwise. -/
theorem c4_regex_degrade (eng : RegexEngine) (pattern : String)
    (cwd : Option String) (rows : List DbRow) (text p2 : String)
    (useRegex : Bool) (log10 : Int → Rat) (parseDate : String → Option Int)
    (now : Int) (grows : List GroupRow) :
    (eng pattern ("i") = none →
      searchCommandsRun eng pattern true cwd rows
        = Except.error ("SyntaxError: Invalid regular expression"))
    ∧ (eng pattern ("i") = none →
      searchCommandsWithFrecencyRegexRun log10 parseDate now eng pattern grows
        = Except.error ("SyntaxError: Invalid regular expression"))
    ∧ (∀ re, eng pattern ("i") = some re →
        searchCommandsRun eng pattern true cwd rows
          = Except.ok (rows.filter
              (fun c => re.test c.command && cwdPass c.cwd cwd)))
    ∧ (∀ re, eng pattern ("i") = some re →
        searchCommandsWithFrecencyRegexRun log10 parseDate now eng pattern grows
          = Except.ok ((grows.filter (fun row => re.test row.command)).map
              (fun row =>
                { id := row.id
                  tool_use_id := row.tool_use_id
                  command := row.command
                  description := row.description
                  cwd := row.cwd
                  stdout := row.stdout
                  stderr := row.stderr
                  is_error := row.is_error
                  timestamp := row.most_recent
                  session_id := row.session_id
                  frequency := row.frequency
                  frecency_score :=
                    calculateFrecencyScore log10 parseDate now row.frequency
                      row.most_recent })))
    ∧ (∃ l, searchCommandsRun eng pattern false cwd rows = Except.ok l)
    ∧ (eng (highlightPattern p2 useRegex) ("gi") = none →
        highlightMatch eng text p2 useRegex = text) := by
  refine ⟨?_, ?_, ?_, ?_, ?_, ?_⟩
  · intro h; simp [searchCommandsRun, h]
  · intro h; simp [searchCommandsWithFrecencyRegexRun, h]
  · intro re h; simp [searchCommandsRun, h]
  · intro re h; simp [searchCommandsWithFrecencyRegexRun, h]
  · by_cases hc : cwdTruthy cwd = true
    · exact ⟨rows.filter (fun c => likeSub pattern c.command
          && decide (c.cwd = cwd)), by simp [searchCommandsRun, hc]⟩
    · exact ⟨rows.filter (fun c => likeSub pattern c.command),
        by simp [searchCommandsRun, hc]⟩
  · intro h
    unfold highlightMatch
    by_cases hp : p2 = ""
    · rw [if_pos hp]
    · rw [if_neg hp, h]

/-- Witness for the amended C4: both regex retrievals return normally under
an engine that accepts the pattern, and highlighting degrades gracefully
under one that rejects it, all at concrete inputs. -/
theorem c4_regex_degrade_witness :
    (∃ l, searchCommandsRun parenRejectEngine ("a(b") true none [exRow]
        = Except.ok l)
    ∧ (∃ l, searchCommandsWithFrecencyRegexRun zeroLog noneParse 0
        parenRejectEngine ("a(b") [exGroupRow] = Except.ok l)
    ∧ highlightMatch noneEngine ("ls -la") ("(") true = "ls -la" := by
  have h2 := c4_regex_degrade noneEngine ("(") none [exRow] ("ls -la") ("(")
    true zeroLog noneParse 0 [exGroupRow]
  have h3 := c4_regex_degrade parenRejectEngine ("a(b") none [exRow] ("x")
    ("y") true zeroLog noneParse 0 [exGroupRow]
  exact ⟨⟨_, h3.2.2.1 { test := fun _ => true, subst := fun t _ => t } rfl⟩,
    ⟨_, h3.2.2.2.1 { test := fun _ => true, subst := fun t _ => t } rfl⟩,
    h2.2.2.2.2.2 rfl⟩

/-! ## Theorems: flattening the parser run -/

theorem micros_cons (e : MessageEntry) (rest : List MessageEntry) :
    micros (e :: rest) = entryMicros e ++ micros rest := by
  simp [micros]

theorem microRun_append (sess : Option String) (a b : List Micro)
    (s : ParseState) :
    microRun sess (a ++ b) s = microRun sess b (microRun sess a s) := by
  simp [microRun, List.foldl_append]

theorem assistantFold_eq_microRun (sess : Option String)
    (cwd ts : Option String) :
    ∀ (l : List ContentItem) (acc : List ParsedCommand) (pm : PendingMap),
    microRun sess (l.filterMap (fun item =>
      match item with
      | ContentItem.toolUse tu =>
        if tu.name = "Bash" ∧ inputCmdTruthy tu.input then
          some (Micro.reg tu.id tu cwd ts)
        else none
      | _ => none)) (acc, pm)
    = (acc, l.foldl (fun pm item =>
        match item with
        | ContentItem.toolUse tu =>
          if tu.name = "Bash" ∧ inputCmdTruthy tu.input then
            pmSet pm tu.id { tu := tu, cwd := cwd, ts := ts }
          else pm
        | _ => pm) pm) := by
  intro l
  induction l with
  | nil => intro acc pm; rfl
  | cons item rest ih =>
    intro acc pm
    cases item with
    | toolUse tu =>
      by_cases h : tu.name = "Bash" ∧ inputCmdTruthy tu.input = true
      · simp only [List.filterMap_cons, List.foldl_cons, if_pos h]
        exact ih acc (pmSet pm tu.id { tu := tu, cwd := cwd, ts := ts })
      · simp only [List.filterMap_cons, List.foldl_cons, if_neg h]
        exact ih acc pm
    | toolResult tuid content isErr =>
      simp only [List.filterMap_cons, List.foldl_cons]
      exact ih acc pm
    | other t =>
      simp only [List.filterMap_cons, List.foldl_cons]
      exact ih acc pm

theorem userFold_eq_microRun (sess : Option String)
    (tur : Option ToolUseResult) :
    ∀ (l : List ContentItem) (st : ParseState),
    microRun sess (l.filterMap (fun item =>
      match item with
      | ContentItem.toolResult tuid content isErr =>
        some (Micro.res tuid content isErr tur)
      | _ => none)) st
    = l.foldl (fun st item =>
        match item with
        | ContentItem.toolResult tuid content isErr =>
          (match pmGet st.2 tuid with
           | some p =>
             (st.1 ++ [emitRecord sess tuid content isErr tur p],
              pmDel st.2 tuid)
           | none => st)
        | _ => st) st := by
  intro l
  induction l with
  | nil => intro st; rfl
  | cons item rest ih =>
    intro st
    cases item with
    | toolUse tu =>
      simp only [List.filterMap_cons, List.foldl_cons]
      exact ih st
    | toolResult tuid content isErr =>
      simp only [List.filterMap_cons, List.foldl_cons]
      show microRun sess _ (microStep sess st (Micro.res tuid content isErr tur)) = _
      rw [ih]
      rfl
    | other t =>
      simp only [List.filterMap_cons, List.foldl_cons]
      exact ih st

theorem processEntry_eq_microRun (sess : Option String) (s : ParseState)
    (entry : MessageEntry) :
    processEntry sess s entry = microRun sess (entryMicros entry) s := by
  obtain ⟨acc, pm⟩ := s
  by_cases ha : entry.type = "assistant"
  · have hu : ¬ entry.type = "user" := by rw [ha]; decide
    unfold processEntry entryMicros
    rw [if_pos ha, if_pos ha, if_neg hu, if_neg hu]
    cases hc : entry.content with
    | str s' => rfl
    | items l =>
      simp only [List.append_nil]
      rw [assistantFold_eq_microRun]
  · unfold processEntry entryMicros
    rw [if_neg ha, if_neg ha]
    by_cases hu : entry.type = "user"
    · rw [if_pos hu, if_pos hu]
      cases hc : entry.content with
      | str s' => simp [microRun]
      | items l =>
        simp only [List.nil_append]
        rw [userFold_eq_microRun]
    · rw [if_neg hu, if_neg hu]
      rfl

theorem foldl_processEntry_eq_microRun (sess : Option String)
    (entries : List MessageEntry) :
    ∀ s : ParseState,
      entries.foldl (processEntry sess) s = microRun sess (micros entries) s := by
  induction entries with
  | nil => intro s; rfl
  | cons e rest ih =>
    intro s
    show List.foldl _ (processEntry sess s e) rest = _
    rw [ih (processEntry sess s e), processEntry_eq_microRun,
      micros_cons, microRun_append]

/-- `extractCommands` is the run of the flattened primitive-event stream. -/
theorem extractCommands_eq_microRun (entries : List MessageEntry)
    (sess : Option String) :
    extractCommands entries sess = (microRun sess (micros entries) ([], [])).1 := by
  unfold extractCommands
  rw [foldl_processEntry_eq_microRun]

/-! ## Theorems: pending-map keys and availability -/

theorem pmKeys_pmDel (m : PendingMap) (k : String) :
    pmKeys (pmDel m k) = (pmKeys m).filter (fun x => decide (x ≠ k)) := by
  unfold pmKeys pmDel
  induction m with
  | nil => rfl
  | cons e rest ih =>
    simp only [decide_not] at ih ⊢
    by_cases he : e.1 = k
    · simp [List.filter_cons, he, ih]
    · simp [List.filter_cons, he, ih]

theorem pmKeys_pmSet (m : PendingMap) (k : String) (v : PendingData) :
    pmKeys (pmSet m k v)
      = k :: (pmKeys m).filter (fun x => decide (x ≠ k)) := by
  have h : pmKeys (pmSet m k v) = k :: pmKeys (pmDel m k) := rfl
  rw [h, pmKeys_pmDel]

theorem pmGet_isSome_of_mem (m : PendingMap) (k : String)
    (h : k ∈ pmKeys m) : ∃ p, pmGet m k = some p := by
  induction m with
  | nil => cases h
  | cons e rest ih =>
    by_cases he : e.1 = k
    · exact ⟨e.2, by simp [pmGet, List.find?_cons, he]⟩
    · have hk : k ∈ pmKeys rest := by
        rcases List.mem_cons.mp h with h1 | h1
        · exact absurd h1.symm he
        · exact h1
      obtain ⟨p, hp⟩ := ih hk
      refine ⟨p, ?_⟩
      simpa [pmGet, List.find?_cons, he] using hp

theorem availM_mono (evs : List Micro) :
    ∀ (env env' : List String), (∀ x, x ∈ env → x ∈ env') →
      availM env evs = true → availM env' evs = true := by
  induction evs with
  | nil => intro env env' hsub h; rfl
  | cons m rest ih =>
    intro env env' hsub h
    cases m with
    | reg id tu cwd ts =>
      simp only [availM] at h ⊢
      refine ih (id :: env) (id :: env') ?_ h
      intro x hx
      rcases List.mem_cons.mp hx with h1 | h1
      · exact List.mem_cons.mpr (Or.inl h1)
      · exact List.mem_cons.mpr (Or.inr (hsub x h1))
    | res id c e u =>
      simp only [availM, Bool.and_eq_true] at h ⊢
      exact ⟨decide_eq_true (hsub id (of_decide_eq_true h.1)),
        ih env env' hsub h.2⟩

theorem availM_erase (evs : List Micro) :
    ∀ (env : List String) (i : String), availM env evs = true →
      i ∉ resIdsM evs →
      availM (env.filter (fun x => decide (x ≠ i))) evs = true := by
  induction evs with
  | nil => intro env i h hres; rfl
  | cons m rest ih =>
    intro env i h hres
    cases m with
    | reg id tu cwd ts =>
      simp only [availM] at h ⊢
      have hres' : i ∉ resIdsM rest := by
        simpa [resIdsM] using hres
      have h1 := ih (id :: env) i h hres'
      refine availM_mono rest _ _ ?_ h1
      intro x hx
      rw [List.mem_filter] at hx
      rcases List.mem_cons.mp hx.1 with h2 | h2
      · exact List.mem_cons.mpr (Or.inl h2)
      · exact List.mem_cons.mpr (Or.inr (List.mem_filter.mpr ⟨h2, hx.2⟩))
    | res id c e u =>
      simp only [availM, Bool.and_eq_true] at h ⊢
      have hne : id ≠ i := by
        intro hcon
        exact hres (by simp [resIdsM, hcon])
      have hres' : i ∉ resIdsM rest := by
        intro hcon
        exact hres (by simp [resIdsM, hcon])
      refine ⟨decide_eq_true ?_, ih env i h.2 hres'⟩
      exact List.mem_filter.mpr ⟨of_decide_eq_true h.1, decide_eq_true hne⟩

/-- Core run lemma: when every result is matched by an earlier registration
(or an initially pending one) and result ids are duplicate-free, the run
emits exactly one record per result event, in input order, carrying the
result's correlation id. -/
theorem microRun_ids (sess : Option String) (evs : List Micro) :
    ∀ (acc : List ParsedCommand) (pm : PendingMap),
      availM (pmKeys pm) evs = true →
      (resIdsM evs).Nodup →
      (microRun sess evs (acc, pm)).1.map (fun r => r.tool_use_id)
        = acc.map (fun r => r.tool_use_id) ++ resIdsM evs := by
  induction evs with
  | nil =>
    intro acc pm h1 h2
    simp [microRun, resIdsM]
  | cons m rest ih =>
    intro acc pm h1 h2
    cases m with
    | reg id tu cwd ts =>
      simp only [availM] at h1
      show (microRun sess rest
        (acc, pmSet pm id { tu := tu, cwd := cwd, ts := ts })).1.map _ = _
      rw [ih acc (pmSet pm id { tu := tu, cwd := cwd, ts := ts }) ?_
        (by simpa [resIdsM] using h2)]
      · simp [resIdsM]
      · refine availM_mono rest (id :: pmKeys pm) _ ?_ h1
        intro x hx
        rw [pmKeys_pmSet]
        rcases List.mem_cons.mp hx with hx1 | hx1
        · exact List.mem_cons.mpr (Or.inl hx1)
        · by_cases hxk : x = id
          · exact List.mem_cons.mpr (Or.inl hxk)
          · exact List.mem_cons.mpr
              (Or.inr (List.mem_filter.mpr ⟨hx1, decide_eq_true hxk⟩))
    | res id c e u =>
      simp only [availM, Bool.and_eq_true] at h1
      obtain ⟨hmem, h1'⟩ := h1
      have hid : id ∈ pmKeys pm := of_decide_eq_true hmem
      obtain ⟨p, hp⟩ := pmGet_isSome_of_mem pm id hid
      simp only [resIdsM, List.nodup_cons] at h2
      have hstep : microStep sess (acc, pm) (Micro.res id c e u)
          = (acc ++ [emitRecord sess id c e u p], pmDel pm id) := by
        simp [microStep, hp]
      show (microRun sess rest (microStep sess (acc, pm) (Micro.res id c e u))).1.map _ = _
      rw [hstep]
      rw [ih (acc ++ [emitRecord sess id c e u p]) (pmDel pm id) ?_ h2.2]
      · simp [emitRecord, resIdsM]
      · rw [pmKeys_pmDel]
        exact availM_erase rest (pmKeys pm) id h1' h2.1

/-! ## Theorems: well-formed request/response streams (C2) -/

theorem entryMicros_seToEntry (ev : SEvent)
    (h : (match ev with
          | SEvent.sreq _ cmd _ _ _ => decide (cmd ≠ "")
          | _ => true) = true) :
    entryMicros (seToEntry ev) = [microOfS ev] := by
  cases ev with
  | sreq id cmd desc cwd ts =>
    have hc : cmd ≠ "" := of_decide_eq_true h
    simp [entryMicros, seToEntry, microOfS, inputCmdTruthy, hc]
  | sres id c e u =>
    simp [entryMicros, seToEntry, microOfS]

theorem micros_map_seToEntry (evs : List SEvent)
    (h : sCmdsNonEmpty evs = true) :
    micros (evs.map seToEntry) = evs.map microOfS := by
  induction evs with
  | nil => rfl
  | cons ev rest ih =>
    simp only [sCmdsNonEmpty, List.all_cons, Bool.and_eq_true] at h
    rw [List.map_cons, micros_cons, List.map_cons,
      entryMicros_seToEntry ev h.1, ih (by simpa [sCmdsNonEmpty] using h.2)]
    rfl

theorem resIdsM_map_microOfS (evs : List SEvent) :
    resIdsM (evs.map microOfS) = sResIds evs := by
  induction evs with
  | nil => rfl
  | cons ev rest ih => cases ev <;> simp [microOfS, resIdsM, sResIds, ih]

theorem regIdsM_map_microOfS (evs : List SEvent) :
    regIdsM (evs.map microOfS) = sReqIds evs := by
  induction evs with
  | nil => rfl
  | cons ev rest ih => cases ev <;> simp [microOfS, regIdsM, sReqIds, ih]

/-- C2: on an input text whose decodable lines form a well-formed scenario of
N request/response pairs — interleaved with arbitrary malformed lines,
which the line loop silently skips — `parseJsonlContent` yields exactly N
records, in input order of the matching results (the k-th record carries
the k-th result's correlation id). -/
theorem c2_parse_pairs (decode : String → Option MessageEntry)
    (sess : Option String) (content : String) (evs : List SEvent)
    (hdec : decodeLines decode (jsSplitNewline content) = evs.map seToEntry)
    (hwf : scenarioWF evs = true) :
    (parseJsonlContent decode content sess).map (fun r => r.tool_use_id)
        = sResIds evs
    ∧ (parseJsonlContent decode content sess).length = (sResIds evs).length
    ∧ (sResIds evs).length = (sReqIds evs).length := by
  simp only [scenarioWF, Bool.and_eq_true] at hwf
  obtain ⟨⟨⟨⟨⟨hcmds, hreqnd⟩, hresnd⟩, havail⟩, hreqsub⟩, hressub⟩ := hwf
  have hresnd' : (sResIds evs).Nodup := of_decide_eq_true hresnd
  have hreqnd' : (sReqIds evs).Nodup := of_decide_eq_true hreqnd
  have hmain : (parseJsonlContent decode content sess).map
      (fun r => r.tool_use_id) = sResIds evs := by
    unfold parseJsonlContent
    rw [hdec, extractCommands_eq_microRun, micros_map_seToEntry evs hcmds]
    rw [microRun_ids sess (evs.map microOfS) [] []
      (by simpa [pmKeys] using havail)
      (by rw [resIdsM_map_microOfS]; exact hresnd')]
    rw [resIdsM_map_microOfS]
    rfl
  refine ⟨hmain, ?_, ?_⟩
  · have := congrArg List.length hmain
    simpa using this
  · have hsub1 : ∀ i ∈ sReqIds evs, i ∈ sResIds evs := by
      intro i hi
      exact of_decide_eq_true (List.all_eq_true.mp hreqsub i hi)
    have hsub2 : ∀ i ∈ sResIds evs, i ∈ sReqIds evs := by
      intro i hi
      exact of_decide_eq_true (List.all_eq_true.mp hressub i hi)
    have hperm : (sResIds evs).Perm (sReqIds evs) := by
      rw [List.perm_ext_iff_of_nodup hresnd' hreqnd']
      intro a
      exact ⟨fun h => hsub2 a h, fun h => hsub1 a h⟩
    exact hperm.length_eq

/-- Witness for C2: one request/response pair with a malformed line between
the two events yields exactly one record, carrying the result's id. -/
theorem c2_parse_pairs_witness :
    (parseJsonlContent exDecode ("R1\njunk\nS1") (some ("sess"))).map
        (fun r => r.tool_use_id) = sResIds exScenario
    ∧ (parseJsonlContent exDecode ("R1\njunk\nS1") (some ("sess"))).length
        = (sResIds exScenario).length
    ∧ (sResIds exScenario).length = (sReqIds exScenario).length :=
  c2_parse_pairs exDecode (some ("sess")) ("R1\njunk\nS1") exScenario
    (by decide) (by decide)

/-! ## Theorems: ignored tool calls and sequential matching (C8) -/

theorem micros_append (a b : List MessageEntry) :
    micros (a ++ b) = micros a ++ micros b := by
  simp [micros]

theorem microRun_acc (sess : Option String) (evs : List Micro) :
    ∀ (acc : List ParsedCommand) (pm : PendingMap),
      microRun sess evs (acc, pm)
        = (acc ++ (microRun sess evs ([], pm)).1,
           (microRun sess evs ([], pm)).2) := by
  induction evs with
  | nil => intro acc pm; simp [microRun]
  | cons m rest ih =>
    intro acc pm
    cases m with
    | reg id tu cwd ts =>
      have e1 : microRun sess (Micro.reg id tu cwd ts :: rest) (acc, pm)
          = microRun sess rest
              (acc, pmSet pm id { tu := tu, cwd := cwd, ts := ts }) := rfl
      have e2 : microRun sess (Micro.reg id tu cwd ts :: rest) ([], pm)
          = microRun sess rest
              ([], pmSet pm id { tu := tu, cwd := cwd, ts := ts }) := rfl
      rw [e1, e2]
      exact ih acc (pmSet pm id { tu := tu, cwd := cwd, ts := ts })
    | res id c e u =>
      have e1 : microRun sess (Micro.res id c e u :: rest) (acc, pm)
          = microRun sess rest (microStep sess (acc, pm) (Micro.res id c e u)) :=
        rfl
      have e2 : microRun sess (Micro.res id c e u :: rest) ([], pm)
          = microRun sess rest (microStep sess ([], pm) (Micro.res id c e u)) :=
        rfl
      rw [e1, e2]
      cases hp : pmGet pm id with
      | some p =>
        have hstep : ∀ acc0 : List ParsedCommand,
            microStep sess (acc0, pm) (Micro.res id c e u)
              = (acc0 ++ [emitRecord sess id c e u p], pmDel pm id) := by
          intro acc0; simp [microStep, hp]
        rw [hstep acc, hstep [], List.nil_append]
        rw [ih (acc ++ [emitRecord sess id c e u p]) (pmDel pm id),
          ih [emitRecord sess id c e u p] (pmDel pm id)]
        simp
      | none =>
        have hstep : ∀ acc0 : List ParsedCommand,
            microStep sess (acc0, pm) (Micro.res id c e u) = (acc0, pm) := by
          intro acc0; simp [microStep, hp]
        rw [hstep acc, hstep []]
        exact ih acc pm

theorem pmGet_mem_keys (m : PendingMap) (k : String) (p : PendingData)
    (h : pmGet m k = some p) : k ∈ pmKeys m := by
  unfold pmGet at h
  cases hf : m.find? (fun e => decide (e.1 = k)) with
  | none => rw [hf] at h; cases h
  | some e =>
    have he : e ∈ m := List.mem_of_find?_eq_some hf
    have hpe := List.find?_some hf
    have hek : e.1 = k := by simpa using hpe
    rw [← hek]
    exact List.mem_map_of_mem (fun x => x.1) he

theorem microRun_no_reg (sess : Option String) (evs : List Micro) :
    ∀ (acc : List ParsedCommand) (pm : PendingMap) (i : String),
      evs.all (fun m => !(isRegFor i m)) = true →
      i ∉ pmKeys pm →
      (∀ r ∈ acc, r.tool_use_id ≠ i) →
      ∀ r ∈ (microRun sess evs (acc, pm)).1, r.tool_use_id ≠ i := by
  induction evs with
  | nil =>
    intro acc pm i hall hkey hacc r hr
    exact hacc r hr
  | cons m rest ih =>
    intro acc pm i hall hkey hacc
    simp only [List.all_cons, Bool.and_eq_true] at hall
    cases m with
    | reg id tu cwd ts =>
      have hid : id ≠ i := by
        intro hcon
        simp [isRegFor, hcon] at hall
      have e1 : microRun sess (Micro.reg id tu cwd ts :: rest) (acc, pm)
          = microRun sess rest
              (acc, pmSet pm id { tu := tu, cwd := cwd, ts := ts }) := rfl
      rw [e1]
      refine ih acc _ i hall.2 ?_ hacc
      rw [pmKeys_pmSet]
      intro hcon
      rcases List.mem_cons.mp hcon with h1 | h1
      · exact hid h1.symm
      · exact hkey (List.mem_filter.mp h1).1
    | res id c e u =>
      have e1 : microRun sess (Micro.res id c e u :: rest) (acc, pm)
          = microRun sess rest (microStep sess (acc, pm) (Micro.res id c e u)) :=
        rfl
      rw [e1]
      cases hp : pmGet pm id with
      | some p =>
        have hidk : id ∈ pmKeys pm := pmGet_mem_keys pm id p hp
        have hid : id ≠ i := by
          intro hcon
          exact hkey (hcon ▸ hidk)
        have hstep : microStep sess (acc, pm) (Micro.res id c e u)
            = (acc ++ [emitRecord sess id c e u p], pmDel pm id) := by
          simp [microStep, hp]
        rw [hstep]
        refine ih (acc ++ [emitRecord sess id c e u p]) (pmDel pm id) i
          hall.2 ?_ ?_
        · rw [pmKeys_pmDel]
          intro hcon
          exact hkey (List.mem_filter.mp hcon).1
        · intro r hr
          rcases List.mem_append.mp hr with h1 | h1
          · exact hacc r h1
          · rcases List.mem_singleton.mp h1 with h2
            rw [h2]
            exact hid
      | none =>
        have hstep : microStep sess (acc, pm) (Micro.res id c e u) = (acc, pm) := by
          simp [microStep, hp]
        rw [hstep]
        exact ih acc pm i hall.2 hkey hacc

theorem regPart_all_no_reg (i : String) (cwd ts : Option String)
    (l : List ContentItem)
    (h : l.all (fun item =>
      match item with
      | ContentItem.toolUse tu =>
        !(decide (tu.id = i)
          && (decide (tu.name = "Bash") && inputCmdTruthy tu.input))
      | _ => true) = true) :
    (l.filterMap (fun item =>
      match item with
      | ContentItem.toolUse tu =>
        if tu.name = "Bash" ∧ inputCmdTruthy tu.input then
          some (Micro.reg tu.id tu cwd ts)
        else none
      | _ => none)).all (fun m => !(isRegFor i m)) = true := by
  induction l with
  | nil => rfl
  | cons item rest ih =>
    simp only [List.all_cons, Bool.and_eq_true] at h
    cases item with
    | toolUse tu =>
      by_cases hc : tu.name = "Bash" ∧ inputCmdTruthy tu.input = true
      · simp only [List.filterMap_cons, if_pos hc, List.all_cons,
          Bool.and_eq_true]
        refine ⟨?_, ih h.2⟩
        have h1 := h.1
        have hBash : decide (tu.name = "Bash") = true := decide_eq_true hc.1
        simp [hBash, hc.2] at h1
        simp [isRegFor, h1]
      · simp only [List.filterMap_cons, if_neg hc]
        exact ih h.2
    | toolResult a b c' =>
      simp only [List.filterMap_cons]
      exact ih h.2
    | other t =>
      simp only [List.filterMap_cons]
      exact ih h.2

theorem resPart_all_no_reg (i : String) (tur : Option ToolUseResult)
    (l : List ContentItem) :
    (l.filterMap (fun item =>
      match item with
      | ContentItem.toolResult tuid content isErr =>
        some (Micro.res tuid content isErr tur)
      | _ => none)).all (fun m => !(isRegFor i m)) = true := by
  induction l with
  | nil => rfl
  | cons item rest ih =>
    cases item with
    | toolUse tu =>
      simp only [List.filterMap_cons]
      exact ih
    | toolResult a b c' =>
      simp only [List.filterMap_cons, List.all_cons, Bool.and_eq_true]
      exact ⟨by simp [isRegFor], ih⟩
    | other t =>
      simp only [List.filterMap_cons]
      exact ih

theorem entryMicros_no_reg (i : String) (e : MessageEntry)
    (h : noRegEntry i e = true) :
    (entryMicros e).all (fun m => !(isRegFor i m)) = true := by
  unfold noRegEntry entryItems at h
  unfold entryMicros
  rw [List.all_append, Bool.and_eq_true]
  constructor
  · by_cases ha : e.type = "assistant"
    · rw [if_pos ha]
      cases hc : e.content with
      | str s => rfl
      | items l =>
        rw [hc] at h
        exact regPart_all_no_reg i e.cwd e.timestamp l h
    · rw [if_neg ha]; rfl
  · by_cases hu : e.type = "user"
    · rw [if_pos hu]
      cases hc : e.content with
      | str s => rfl
      | items l => exact resPart_all_no_reg i e.toolUseResult l
    · rw [if_neg hu]; rfl

theorem micros_all_no_reg (i : String) (entries : List MessageEntry)
    (h : ∀ e ∈ entries, noRegEntry i e = true) :
    (micros entries).all (fun m => !(isRegFor i m)) = true := by
  induction entries with
  | nil => rfl
  | cons e rest ih =>
    rw [micros_cons, List.all_append, Bool.and_eq_true]
    exact ⟨entryMicros_no_reg i e (h e (List.mem_cons_self e rest)),
      ih (fun x hx => h x (List.mem_cons_of_mem e hx))⟩

/-- C8: when no entry of a prefix contains a Bash tool call with id `i` and a
non-empty command — in particular when every tool call with id `i` is for a
non-shell tool, or has an empty or absent command — processing that prefix
emits no record with id `i`, and the records of the whole stream are the
prefix's records followed by the continuation's: a result can only be
matched by a registration made earlier in the input sequence. -/
theorem c8_ignored_calls (pre post : List MessageEntry) (sess : Option String)
    (i : String) (h : ∀ e ∈ pre, noRegEntry i e = true) :
    ∃ tail, extractCommands (pre ++ post) sess
        = extractCommands pre sess ++ tail
      ∧ ∀ r ∈ extractCommands pre sess, r.tool_use_id ≠ i := by
  have hpre : ∀ r ∈ extractCommands pre sess, r.tool_use_id ≠ i := by
    rw [extractCommands_eq_microRun]
    exact microRun_no_reg sess (micros pre) [] [] i
      (micros_all_no_reg i pre h)
      (by simp [pmKeys]) (by intro r hr; cases hr)
  refine ⟨(microRun sess (micros post)
    ([], (microRun sess (micros pre) ([], [])).2)).1, ?_, hpre⟩
  rw [extractCommands_eq_microRun, extractCommands_eq_microRun,
    micros_append, microRun_append, microRun_acc]

/-- Witness for C8: a Bash call with an empty command is never registered, so
a result with its id emits nothing; appending further entries only appends
records. -/
theorem c8_ignored_calls_witness :
    ∃ tail, extractCommands
        ([reqEntry ("t1") (""), resEntry ("t1")] ++ [reqEntry ("t2") ("ls")])
        none
      = extractCommands [reqEntry ("t1") (""), resEntry ("t1")] none ++ tail
      ∧ ∀ r ∈ extractCommands [reqEntry ("t1") (""), resEntry ("t1")] none,
          r.tool_use_id ≠ "t1" :=
  c8_ignored_calls [reqEntry ("t1") (""), resEntry ("t1")]
    [reqEntry ("t2") ("ls")] none ("t1") (by decide)

/-! ## Theorems: record invariants (C9) -/

theorem pmSet_mem (m : PendingMap) (k : String) (v : PendingData)
    (kv : String × PendingData) (h : kv ∈ pmSet m k v) :
    kv = (k, v) ∨ kv ∈ m := by
  unfold pmSet at h
  rcases List.mem_cons.mp h with h1 | h1
  · exact Or.inl h1
  · exact Or.inr (List.mem_filter.mp h1).1

theorem pmDel_mem (m : PendingMap) (k : String) (kv : String × PendingData)
    (h : kv ∈ pmDel m k) : kv ∈ m :=
  (List.mem_filter.mp h).1

theorem pmGet_pair_mem (m : PendingMap) (k : String) (p : PendingData)
    (h : pmGet m k = some p) : (k, p) ∈ m := by
  unfold pmGet at h
  cases hf : m.find? (fun e => decide (e.1 = k)) with
  | none => rw [hf] at h; cases h
  | some e =>
    rw [hf] at h
    have he : e ∈ m := List.mem_of_find?_eq_some hf
    have hpe := List.find?_some hf
    have hek : e.1 = k := by simpa using hpe
    have hev : e.2 = p := by
      simpa using h
    have : e = (k, p) := by
      cases e
      simp only [Prod.mk.injEq]
      exact ⟨hek, hev⟩
    rw [← this]
    exact he

theorem truthy_command_nonempty (i : Option ToolInput)
    (h : inputCmdTruthy i = true) :
    (i.bind (fun x => x.command)).getD "" ≠ "" := by
  cases i with
  | none => cases h
  | some inp =>
    cases hc : inp.command with
    | none => rw [inputCmdTruthy, hc] at h; cases h
    | some c =>
      rw [inputCmdTruthy, hc] at h
      have : c ≠ "" := of_decide_eq_true h
      simpa [hc] using this

theorem microRun_cmd_nonempty (sess : Option String) (evs : List Micro) :
    ∀ (acc : List ParsedCommand) (pm : PendingMap),
      (∀ m ∈ evs, ∀ id tu cwd ts, m = Micro.reg id tu cwd ts →
        inputCmdTruthy tu.input = true) →
      (∀ kv ∈ pm, inputCmdTruthy kv.2.tu.input = true) →
      (∀ r ∈ acc, r.command ≠ "") →
      ∀ r ∈ (microRun sess evs (acc, pm)).1, r.command ≠ "" := by
  induction evs with
  | nil =>
    intro acc pm hevs hpm hacc r hr
    exact hacc r hr
  | cons m rest ih =>
    intro acc pm hevs hpm hacc
    have hevs' : ∀ m ∈ rest, ∀ id tu cwd ts, m = Micro.reg id tu cwd ts →
        inputCmdTruthy tu.input = true :=
      fun m hm => hevs m (List.mem_cons_of_mem _ hm)
    cases m with
    | reg id tu cwd ts =>
      have e1 : microRun sess (Micro.reg id tu cwd ts :: rest) (acc, pm)
          = microRun sess rest
              (acc, pmSet pm id { tu := tu, cwd := cwd, ts := ts }) := rfl
      rw [e1]
      refine ih acc _ hevs' ?_ hacc
      intro kv hkv
      rcases pmSet_mem pm id { tu := tu, cwd := cwd, ts := ts } kv hkv with h1 | h1
      · rw [h1]
        exact hevs (Micro.reg id tu cwd ts) (List.mem_cons_self _ _)
          id tu cwd ts rfl
      · exact hpm kv h1
    | res id c e u =>
      have e1 : microRun sess (Micro.res id c e u :: rest) (acc, pm)
          = microRun sess rest (microStep sess (acc, pm) (Micro.res id c e u)) :=
        rfl
      rw [e1]
      cases hp : pmGet pm id with
      | some p =>
        have hstep : microStep sess (acc, pm) (Micro.res id c e u)
            = (acc ++ [emitRecord sess id c e u p], pmDel pm id) := by
          simp [microStep, hp]
        rw [hstep]
        refine ih (acc ++ [emitRecord sess id c e u p]) (pmDel pm id)
          hevs' ?_ ?_
        · intro kv hkv
          exact hpm kv (pmDel_mem pm id kv hkv)
        · intro r hr
          rcases List.mem_append.mp hr with h1 | h1
          · exact hacc r h1
          · rw [List.mem_singleton.mp h1]
            exact truthy_command_nonempty p.tu.input
              (hpm (id, p) (pmGet_pair_mem pm id p hp))
      | none =>
        have hstep : microStep sess (acc, pm) (Micro.res id c e u) = (acc, pm) := by
          simp [microStep, hp]
        rw [hstep]
        exact ih acc pm hevs' hpm hacc

theorem micros_regs_truthy (entries : List MessageEntry) :
    ∀ m ∈ micros entries, ∀ id tu cwd ts, m = Micro.reg id tu cwd ts →
      inputCmdTruthy tu.input = true := by
  induction entries with
  | nil => intro m hm; cases hm
  | cons e rest ih =>
    intro m hm
    rw [micros_cons] at hm
    rcases List.mem_append.mp hm with h1 | h1
    · intro id tu cwd ts hmeq
      subst hmeq
      unfold entryMicros at h1
      rcases List.mem_append.mp h1 with h2 | h2
      · by_cases ha : e.type = "assistant"
        · rw [if_pos ha] at h2
          cases hc : e.content with
          | str s => rw [hc] at h2; cases h2
          | items l =>
            rw [hc] at h2
            obtain ⟨item, hitem, hsome⟩ := List.mem_filterMap.mp h2
            cases item with
            | toolUse tu2 =>
              have hsome' : (if tu2.name = "Bash" ∧ inputCmdTruthy tu2.input = true
                  then some (Micro.reg tu2.id tu2 e.cwd e.timestamp)
                  else none) = some (Micro.reg id tu cwd ts) := hsome
              by_cases hcond : tu2.name = "Bash" ∧ inputCmdTruthy tu2.input = true
              · rw [if_pos hcond] at hsome'
                have h3 : Micro.reg tu2.id tu2 e.cwd e.timestamp
                    = Micro.reg id tu cwd ts := by
                  injection hsome'
                injection h3 with h4 h5 h6 h7
                rw [← h5]
                exact hcond.2
              · rw [if_neg hcond] at hsome'
                cases hsome'
            | toolResult a b c' => cases hsome
            | other t => cases hsome
        · rw [if_neg ha] at h2; cases h2
      · by_cases hu : e.type = "user"
        · rw [if_pos hu] at h2
          cases hc : e.content with
          | str s => rw [hc] at h2; cases h2
          | items l =>
            rw [hc] at h2
            obtain ⟨item, hitem, hsome⟩ := List.mem_filterMap.mp h2
            cases item with
            | toolUse tu2 => cases hsome
            | toolResult a b c' => cases hsome
            | other t => cases hsome
        · rw [if_neg hu] at h2; cases h2
    · exact ih m h1

theorem microRun_nodup (sess : Option String) (evs : List Micro) :
    ∀ (acc : List ParsedCommand) (pm : PendingMap),
      (regIdsM evs).Nodup →
      (acc.map (fun r => r.tool_use_id)).Nodup →
      (∀ j, j ∈ regIdsM evs →
        j ∉ acc.map (fun r => r.tool_use_id) ∧ j ∉ pmKeys pm) →
      (∀ j, j ∈ pmKeys pm → j ∉ acc.map (fun r => r.tool_use_id)) →
      ((microRun sess evs (acc, pm)).1.map (fun r => r.tool_use_id)).Nodup := by
  induction evs with
  | nil =>
    intro acc pm hreg hacc hfresh hpm
    exact hacc
  | cons m rest ih =>
    intro acc pm hreg hacc hfresh hpm
    cases m with
    | reg id tu cwd ts =>
      simp only [regIdsM, List.nodup_cons] at hreg
      have e1 : microRun sess (Micro.reg id tu cwd ts :: rest) (acc, pm)
          = microRun sess rest
              (acc, pmSet pm id { tu := tu, cwd := cwd, ts := ts }) := rfl
      rw [e1]
      refine ih acc _ hreg.2 hacc ?_ ?_
      · intro j hj
        have hj' := hfresh j (by simp [regIdsM, hj])
        refine ⟨hj'.1, ?_⟩
        rw [pmKeys_pmSet]
        intro hcon
        rcases List.mem_cons.mp hcon with h1 | h1
        · exact hreg.1 (h1 ▸ hj)
        · exact hj'.2 (List.mem_filter.mp h1).1
      · intro j hj
        rw [pmKeys_pmSet] at hj
        rcases List.mem_cons.mp hj with h1 | h1
        · exact h1 ▸ (hfresh id (by simp [regIdsM])).1
        · exact hpm j (List.mem_filter.mp h1).1
    | res id c e u =>
      have hreg' : (regIdsM rest).Nodup := by simpa [regIdsM] using hreg
      have hfresh' : ∀ j, j ∈ regIdsM rest →
          j ∉ acc.map (fun r => r.tool_use_id) ∧ j ∉ pmKeys pm := by
        intro j hj
        exact hfresh j (by simpa [regIdsM] using hj)
      have e1 : microRun sess (Micro.res id c e u :: rest) (acc, pm)
          = microRun sess rest (microStep sess (acc, pm) (Micro.res id c e u)) :=
        rfl
      rw [e1]
      cases hp : pmGet pm id with
      | some p =>
        have hidk : id ∈ pmKeys pm := pmGet_mem_keys pm id p hp
        have hidacc : id ∉ acc.map (fun r => r.tool_use_id) := hpm id hidk
        have hstep : microStep sess (acc, pm) (Micro.res id c e u)
            = (acc ++ [emitRecord sess id c e u p], pmDel pm id) := by
          simp [microStep, hp]
        rw [hstep]
        have hmap : (acc ++ [emitRecord sess id c e u p]).map
            (fun r => r.tool_use_id)
            = acc.map (fun r => r.tool_use_id) ++ [id] := by
          simp [emitRecord]
        refine ih (acc ++ [emitRecord sess id c e u p]) (pmDel pm id)
          hreg' ?_ ?_ ?_
        · rw [hmap]
          rw [List.nodup_append]
          exact ⟨hacc, List.nodup_singleton id,
            fun a ha hb => hidacc ((List.mem_singleton.mp hb) ▸ ha)⟩
        · intro j hj
          obtain ⟨hj1, hj2⟩ := hfresh' j hj
          constructor
          · rw [hmap]
            intro hcon
            rcases List.mem_append.mp hcon with h1 | h1
            · exact hj1 h1
            · exact hj2 ((List.mem_singleton.mp h1) ▸ hidk)
          · rw [pmKeys_pmDel]
            intro hcon
            exact hj2 (List.mem_filter.mp hcon).1
        · intro j hj
          rw [pmKeys_pmDel] at hj
          have hj1 := (List.mem_filter.mp hj).1
          have hj2 : (j ≠ id) := of_decide_eq_true (List.mem_filter.mp hj).2
          rw [hmap]
          intro hcon
          rcases List.mem_append.mp hcon with h1 | h1
          · exact hpm j hj1 h1
          · exact hj2 (List.mem_singleton.mp h1)
      | none =>
        have hstep : microStep sess (acc, pm) (Micro.res id c e u) = (acc, pm) := by
          simp [microStep, hp]
        rw [hstep]
        exact ih acc pm hreg' hacc hfresh' hpm

/-- C9 counterexample: re-registering a consumed correlation id lets a second
result emit a second record with the same id within one pass, refuting the
unconditional at-most-one-record-per-id claim. -/
theorem c9_counterexample :
    (extractCommands reRegEntries (some ("s"))).map (fun r => r.tool_use_id)
        = [("t1" : String), ("t1")]
    ∧ ¬ ((extractCommands reRegEntries (some ("s"))).map
        (fun r => r.tool_use_id)).Nodup := by
  constructor
  · decide
  · decide

/-- C9 (amended): every emitted record has a non-empty command; and each
pending registration produces at most one record (the entry is deleted when
consumed), so when the stream registers each correlation id at most once,
at most one record per correlation id is emitted.  A stream that registers
an id again after its record was consumed can emit the id again. -/
theorem c9_invariants (entries : List MessageEntry) (sess : Option String) :
    (∀ r ∈ extractCommands entries sess, r.command ≠ "")
    ∧ ((regIdsM (micros entries)).Nodup →
        ((extractCommands entries sess).map (fun r => r.tool_use_id)).Nodup) := by
  constructor
  · rw [extractCommands_eq_microRun]
    exact microRun_cmd_nonempty sess (micros entries) [] []
      (micros_regs_truthy entries)
      (by intro kv hkv; cases hkv)
      (by intro r hr; cases hr)
  · intro hnd
    rw [extractCommands_eq_microRun]
    refine microRun_nodup sess (micros entries) [] [] hnd (by simp) ?_ ?_
    · intro j hj
      exact ⟨by simp, by simp [pmKeys]⟩
    · intro j hj
      cases hj

/-- Witness for the amended C9 on a stream whose single registration is
consumed once. -/
theorem c9_invariants_witness :
    (∀ r ∈ extractCommands [reqEntry ("t2") ("ls"), resEntry ("t2")] none,
        r.command ≠ "")
    ∧ ((extractCommands [reqEntry ("t2") ("ls"), resEntry ("t2")] none).map
        (fun r => r.tool_use_id)).Nodup := by
  have h := c9_invariants [reqEntry ("t2") ("ls"), resEntry ("t2")] none
  exact ⟨h.1, h.2 (by decide)⟩

/-! ## Theorems: resuming from a byte offset (C5) -/

theorem lineStartPos_zero (lines : List String) : lineStartPos lines 0 = 0 :=
  rfl

theorem lineStartPos_cons (l : String) (rest : List String) (j : Nat) :
    lineStartPos (l :: rest) (j + 1)
      = (utf8Len l + 1) + lineStartPos rest j := by
  simp [lineStartPos, List.take_succ_cons]

/-- The source's byte walk finds exactly the line containing the offset: the
returned index `i0 + j` satisfies `lineStart j <= off < lineStart (j+1)`
(positions taken relative to the walk's starting byte position `b0`). -/
theorem startLineWalk_spec (off : Nat) (lines : List String) :
    ∀ (i0 b0 : Nat), b0 ≤ off →
      off < b0 + ((lines.map (fun l => utf8Len l + 1)).sum) →
      ∃ j, j < lines.length
        ∧ startLineWalk off lines i0 b0 = i0 + j
        ∧ b0 + lineStartPos lines j ≤ off
        ∧ off < b0 + lineStartPos lines (j + 1) := by
  induction lines with
  | nil =>
    intro i0 b0 h1 h2
    simp at h2
    omega
  | cons l rest ih =>
    intro i0 b0 h1 h2
    by_cases hbr : off < b0 + (utf8Len l + 1)
    · refine ⟨0, by simp, ?_, ?_, ?_⟩
      · show startLineWalk off (l :: rest) i0 b0 = i0 + 0
        unfold startLineWalk
        rw [if_pos hbr]
        omega
      · simpa [lineStartPos_zero] using h1
      · rw [lineStartPos_cons, lineStartPos_zero]
        omega
    · have h2' : off
          < (b0 + (utf8Len l + 1)) + ((rest.map (fun l => utf8Len l + 1)).sum) := by
        simp only [List.map_cons, List.sum_cons] at h2
        omega
      obtain ⟨j, hj1, hj2, hj3, hj4⟩ :=
        ih (i0 + 1) (b0 + (utf8Len l + 1)) (by omega) h2'
      refine ⟨j + 1, by simpa using Nat.succ_lt_succ hj1, ?_, ?_, ?_⟩
      · show startLineWalk off (l :: rest) i0 b0 = i0 + (j + 1)
        unfold startLineWalk
        rw [if_neg hbr, hj2]
        omega
      · rw [lineStartPos_cons]
        omega
      · rw [lineStartPos_cons]
        omega

theorem leadsWith_refl (l : List Char) : leadsWith l l = true := by
  induction l with
  | nil => rfl
  | cons c rest ih => simp [leadsWith, ih]

/-- When the pattern occurs in `s ++ pat` only as the trailing copy,
first-occurrence replacement by the empty string strips exactly that
trailing copy. -/
theorem replaceFirstList_strip (pat : List Char) :
    ∀ (s : List Char),
      (∀ k, k < s.length → leadsWith pat ((s ++ pat).drop k) = false) →
      replaceFirstList pat [] (s ++ pat) = s := by
  intro s
  induction s with
  | nil =>
    intro h
    cases pat with
    | nil => rfl
    | cons c rest =>
      show replaceFirstList (c :: rest) [] (c :: rest) = []
      unfold replaceFirstList
      rw [if_pos (leadsWith_refl (c :: rest))]
      simp
  | cons c s' ih =>
    intro h
    show replaceFirstList pat [] (c :: (s' ++ pat)) = c :: s'
    unfold replaceFirstList
    rw [if_neg ?hno]
    case hno =>
      have h0 := h 0 (by simp)
      simp only [List.drop_zero, List.cons_append] at h0
      simp [h0]
    congr 1
    refine ih (fun k hk => ?_)
    have hk1 := h (k + 1) (by simpa using Nat.succ_lt_succ hk)
    simpa using hk1

theorem jsReplaceFirst_strip_trailing (stem pat : String)
    (h : onlyTrailingOcc stem pat = true) :
    jsReplaceFirst (stem ++ pat) pat ("") = stem := by
  have hdata : (stem ++ pat).data = stem.data ++ pat.data := rfl
  have hall : ∀ k, k < stem.data.length →
      leadsWith pat.data ((stem.data ++ pat.data).drop k) = false := by
    intro k hk
    have := List.all_eq_true.mp h k (List.mem_range.mpr hk)
    simpa using this
  show String.mk (replaceFirstList pat.data [] (stem ++ pat).data) = stem
  rw [hdata, replaceFirstList_strip pat.data stem.data hall]

/-- C5 counterexample: for content `"abcdef\nxyz"` and byte offset 3 (which
falls inside the first line), `indexFile` re-parses from the start of the
line containing the offset — byte 0, before the offset — whereas the claim
prescribes starting at the first line boundary at or after the offset
(byte 7, the start of `"xyz"`).  The two suffixes differ. -/
theorem c5_counterexample :
    indexFileSuffix ("abcdef\nxyz") 3 = ("abcdef\nxyz")
    ∧ specSuffixFromBoundary ("abcdef\nxyz") 3 = some ("xyz")
    ∧ ("abcdef\nxyz" : String) ≠ ("xyz") :=
  ⟨rfl, rfl, by decide⟩

/-- C5 (amended): for a starting byte offset inside the file's walked byte
extent, `indexFile` parses from the start of the line containing the offset
(the last line boundary at or before it; this is the first boundary at or
after the offset exactly when the offset sits on a boundary), locating it
by walking lines and summing UTF-8 byte lengths, so no partial line is ever
parsed in isolation; the session identifier is the base name with the first
occurrence of `".jsonl"` removed, which equals stripping the extension
whenever the base name's earliest `".jsonl"` is the trailing one. -/
theorem c5_line_boundary (decode : String → Option MessageEntry)
    (path content : String) (off : Nat) (h1 : 0 < off)
    (h2 : off < totalBytesOf content) :
    (∃ i, i < (jsSplitNewline content).length
      ∧ startLineOf content off = i
      ∧ lineStartPos (jsSplitNewline content) i ≤ off
      ∧ off < lineStartPos (jsSplitNewline content) (i + 1)
      ∧ indexFileCommands decode path content off
          = parseJsonlContent decode
              (joinNL ((jsSplitNewline content).drop i)) (sessionIdOf path))
    ∧ (∀ stem : String, onlyTrailingOcc stem (".jsonl") = true →
        jsReplaceFirst (stem ++ (".jsonl")) (".jsonl") ("") = stem) := by
  constructor
  · obtain ⟨j, hj1, hj2, hj3, hj4⟩ :=
      startLineWalk_spec off (jsSplitNewline content) 0 0 (by omega)
        (by simpa [totalBytesOf] using h2)
    have hstart : startLineOf content off = j := by
      unfold startLineOf
      rw [if_pos h1, hj2]
      omega
    refine ⟨j, hj1, hstart, by simpa using hj3, by simpa using hj4, ?_⟩
    unfold indexFileCommands indexFileSuffix
    rw [hstart]
  · intro stem hstem
    exact jsReplaceFirst_strip_trailing stem (".jsonl") hstem

/-- Witness for the amended C5: offset 7 in `"abc\ndef\nghi"` lands exactly on
the start of the second line, so parsing resumes there; and the session id
of `"a/b/s.jsonl"` is `"s"`. -/
theorem c5_line_boundary_witness :
    (∃ i, i < (jsSplitNewline ("abc\ndef\nghi")).length
      ∧ startLineOf ("abc\ndef\nghi") 7 = i
      ∧ lineStartPos (jsSplitNewline ("abc\ndef\nghi")) i ≤ 7
      ∧ 7 < lineStartPos (jsSplitNewline ("abc\ndef\nghi")) (i + 1)
      ∧ indexFileCommands noneDecode ("a/b/s.jsonl") ("abc\ndef\nghi") 7
          = parseJsonlContent noneDecode
              (joinNL ((jsSplitNewline ("abc\ndef\nghi")).drop i))
              (sessionIdOf ("a/b/s.jsonl")))
    ∧ jsReplaceFirst (("s" : String) ++ (".jsonl")) (".jsonl") ("") = "s" := by
  have h := c5_line_boundary noneDecode ("a/b/s.jsonl") ("abc\ndef\nghi") 7
    (by decide) (by decide)
  exact ⟨h.1, h.2 ("s") (by decide)⟩

/-! ## Theorems: re-sync over unchanged files (C3) -/

theorem insertFold_indexedFiles (cmds : List ParsedCommand) :
    ∀ db : DbState,
      (cmds.foldl (fun d c => insertIntoDb c d) db).indexedFiles
        = db.indexedFiles := by
  induction cmds with
  | nil => intro db; rfl
  | cons c rest ih =>
    intro db
    rw [List.foldl_cons, ih]
    rfl

theorem getIndexedFileDb_insertFold (cmds : List ParsedCommand) (db : DbState)
    (q : String) :
    getIndexedFileDb (cmds.foldl (fun d c => insertIntoDb c d) db) q
      = getIndexedFileDb db q := by
  unfold getIndexedFileDb
  rw [insertFold_indexedFiles]

theorem getIndexedFileDb_indexFileDb (decode : String → Option MessageEntry)
    (path content : String) (off : Nat) (db : DbState) (q : String) :
    getIndexedFileDb (indexFileDb decode path content off db).2 q
      = getIndexedFileDb db q := by
  show getIndexedFileDb ((indexFileCommands decode path content off).foldl
    (fun d c => insertIntoDb c d) db) q = getIndexedFileDb db q
  exact getIndexedFileDb_insertFold _ db q

theorem find?_filter_ne (l : List IndexedFileRow) (p q : String)
    (h : ¬ q = p) :
    (l.filter (fun r => decide (r.file_path ≠ p))).find?
        (fun r => decide (r.file_path = q))
      = l.find? (fun r => decide (r.file_path = q)) := by
  induction l with
  | nil => rfl
  | cons r rest ih =>
    rw [List.filter_cons]
    by_cases hr : r.file_path = p
    · have h1 : decide (r.file_path ≠ p) = false := by simp [hr]
      have h2 : decide (r.file_path = q) = false :=
        decide_eq_false (fun hcon => h ((hr ▸ hcon).symm))
      rw [h1]
      simp only [Bool.false_eq_true, if_false]
      rw [ih, List.find?_cons, h2]
    · have h1 : decide (r.file_path ≠ p) = true := by simp [hr]
      rw [h1]
      simp only [if_true]
      rw [List.find?_cons, List.find?_cons]
      cases hq : decide (r.file_path = q) with
      | true => rfl
      | false => exact ih

theorem getIndexedFileDb_update_self (db : DbState) (p : String) (off : Nat)
    (mt : Int) :
    getIndexedFileDb (updateIndexedFileDb db p off mt) p
      = some (IndexedFileRow.mk p off mt) := by
  unfold getIndexedFileDb updateIndexedFileDb
  rw [List.find?_cons]
  have h2 : decide ((IndexedFileRow.mk p off mt).file_path = p) = true :=
    decide_eq_true rfl
  rw [h2]

theorem getIndexedFileDb_update_other (db : DbState) (p q : String)
    (off : Nat) (mt : Int) (h : ¬ q = p) :
    getIndexedFileDb (updateIndexedFileDb db p off mt) q
      = getIndexedFileDb db q := by
  unfold getIndexedFileDb updateIndexedFileDb
  rw [List.find?_cons]
  have h2 : decide ((IndexedFileRow.mk p off mt).file_path = q) = false :=
    decide_eq_false (fun hcon => h hcon.symm)
  rw [h2]
  exact find?_filter_ne db.indexedFiles p q h

/-- `syncFileStep` with its local bindings expanded (definitional). -/
theorem syncFileStep_eq (decode : String → Option MessageEntry) (force : Bool)
    (res : SyncResult) (db : DbState) (pf : String × SFile) :
    syncFileStep decode force (res, db) pf
      = if (!force && (match getIndexedFileDb db pf.1 with
            | some ix => decide (fileSize pf.2 ≤ ix.last_byte_offset)
            | none => false)) = true then
          ({ res with filesScanned := res.filesScanned + 1 }, db)
        else
          ({ { res with filesScanned := res.filesScanned + 1 } with
              newCommands := res.newCommands
                + (indexFileDb decode pf.1 pf.2.content
                    (if force then 0
                     else match getIndexedFileDb db pf.1 with
                       | some ix => ix.last_byte_offset
                       | none => 0) db).1 },
            updateIndexedFileDb
              (indexFileDb decode pf.1 pf.2.content
                (if force then 0
                 else match getIndexedFileDb db pf.1 with
                   | some ix => ix.last_byte_offset
                   | none => 0) db).2
              pf.1 (fileSize pf.2) pf.2.mtime) := rfl

theorem syncFileStep_getIndexed_other (decode : String → Option MessageEntry)
    (force : Bool) (res : SyncResult) (db : DbState) (pf : String × SFile)
    (q : String) (h : ¬ q = pf.1) :
    getIndexedFileDb (syncFileStep decode force (res, db) pf).2 q
      = getIndexedFileDb db q := by
  rw [syncFileStep_eq]
  by_cases hc : (!force && (match getIndexedFileDb db pf.1 with
      | some ix => decide (fileSize pf.2 ≤ ix.last_byte_offset)
      | none => false)) = true
  · rw [if_pos hc]
  · rw [if_neg hc]
    show getIndexedFileDb (updateIndexedFileDb _ pf.1 (fileSize pf.2)
      pf.2.mtime) q = _
    rw [getIndexedFileDb_update_other _ _ _ _ _ h]
    exact getIndexedFileDb_indexFileDb decode pf.1 pf.2.content _ db q

theorem syncFold_getIndexed_other (decode : String → Option MessageEntry)
    (force : Bool) (files : List (String × SFile)) :
    ∀ (st : SyncResult × DbState) (q : String),
      q ∉ files.map (fun pf => pf.1) →
      getIndexedFileDb ((files.foldl (syncFileStep decode force) st).2) q
        = getIndexedFileDb st.2 q := by
  induction files with
  | nil => intro st q h; rfl
  | cons f rest ih =>
    intro st q h
    obtain ⟨res, db⟩ := st
    rw [List.map_cons] at h
    rw [List.foldl_cons, ih (syncFileStep decode force (res, db) f) q
      (fun hcon => h (List.mem_cons_of_mem _ hcon))]
    exact syncFileStep_getIndexed_other decode force res db f q
      (fun hcon => h (List.mem_cons.mpr (Or.inl hcon)))

theorem syncFileStep_covers (decode : String → Option MessageEntry)
    (res : SyncResult) (db : DbState) (pf : String × SFile) :
    ∃ ix, getIndexedFileDb (syncFileStep decode false (res, db) pf).2 pf.1
        = some ix
      ∧ fileSize pf.2 ≤ ix.last_byte_offset := by
  rw [syncFileStep_eq]
  by_cases hc : (!false && (match getIndexedFileDb db pf.1 with
      | some ix => decide (fileSize pf.2 ≤ ix.last_byte_offset)
      | none => false)) = true
  · rw [if_pos hc]
    simp only [Bool.not_false, Bool.true_and] at hc
    cases hix : getIndexedFileDb db pf.1 with
    | none => rw [hix] at hc; cases hc
    | some ix =>
      rw [hix] at hc
      exact ⟨ix, rfl, of_decide_eq_true hc⟩
  · rw [if_neg hc]
    refine ⟨IndexedFileRow.mk pf.1 (fileSize pf.2) pf.2.mtime, ?_, le_refl _⟩
    exact getIndexedFileDb_update_self _ pf.1 _ pf.2.mtime

theorem syncFold_covers (decode : String → Option MessageEntry)
    (files : List (String × SFile))
    (hnd : (files.map (fun pf => pf.1)).Nodup) :
    ∀ (st : SyncResult × DbState), ∀ pf ∈ files,
      ∃ ix, getIndexedFileDb
          ((files.foldl (syncFileStep decode false) st).2) pf.1 = some ix
        ∧ fileSize pf.2 ≤ ix.last_byte_offset := by
  induction files with
  | nil => intro st pf hpf; cases hpf
  | cons f rest ih =>
    intro st pf hpf
    obtain ⟨res, db⟩ := st
    rw [List.map_cons, List.nodup_cons] at hnd
    rw [List.foldl_cons]
    rcases List.mem_cons.mp hpf with h1 | h1
    · subst h1
      obtain ⟨ix, hix, hle⟩ := syncFileStep_covers decode res db pf
      rw [syncFold_getIndexed_other decode false rest
        (syncFileStep decode false (res, db) pf) pf.1 hnd.1]
      exact ⟨ix, hix, hle⟩
    · exact ih hnd.2 (syncFileStep decode false (res, db) f) pf h1

theorem syncFold_all_skip (decode : String → Option MessageEntry)
    (files : List (String × SFile)) :
    ∀ (res : SyncResult) (db : DbState),
      (∀ pf ∈ files, ∃ ix, getIndexedFileDb db pf.1 = some ix
        ∧ fileSize pf.2 ≤ ix.last_byte_offset) →
      files.foldl (syncFileStep decode false) (res, db)
        = ({ res with filesScanned := res.filesScanned + files.length }, db) := by
  induction files with
  | nil => intro res db h; simp
  | cons f rest ih =>
    intro res db h
    obtain ⟨ix, hix, hle⟩ := h f (List.mem_cons_self f rest)
    have hstep : syncFileStep decode false (res, db) f
        = ({ res with filesScanned := res.filesScanned + 1 }, db) := by
      rw [syncFileStep_eq]
      rw [if_pos (by rw [hix]; simpa using decide_eq_true hle)]
    rw [List.foldl_cons, hstep,
      ih { res with filesScanned := res.filesScanned + 1 } db
        (fun pf hpf => h pf (List.mem_cons_of_mem f hpf))]
    cases res
    simp only [List.length_cons, Prod.mk.injEq, SyncResult.mk.injEq,
      and_true, true_and]
    omega

/-- C3: with every enumerated file already fully indexed (its checkpoint's
byte offset at least its current size), a non-forced sync pass counts every
file in `filesScanned` but parses and inserts nothing; in particular the
second of two consecutive non-forced syncs over an unchanged tree scans all
files and reports zero new commands and no errors. -/
theorem c3_resync_unchanged (decode : String → Option MessageEntry)
    (pd : String) (fs : FS) (db : DbState) (hroot : fs.rootExists = true)
    (hnd : ((collectJsonl pd fs.entries).map (fun pf => pf.1)).Nodup) :
    (sync decode pd fs false (sync decode pd fs false db).2).1
      = { filesScanned := (collectJsonl pd fs.entries).length,
          newCommands := 0, errors := [] } := by
  unfold sync
  rw [if_neg (by rw [hroot]; decide), if_neg (by rw [hroot]; decide)]
  rw [syncFold_all_skip decode (collectJsonl pd fs.entries)
    { filesScanned := 0, newCommands := 0, errors := [] }
    ((collectJsonl pd fs.entries).foldl (syncFileStep decode false)
      ({ filesScanned := 0, newCommands := 0, errors := [] }, db)).2
    (syncFold_covers decode (collectJsonl pd fs.entries) hnd
      ({ filesScanned := 0, newCommands := 0, errors := [] }, db))]
  simp

/-- Witness for C3: one project directory with one empty `.jsonl` file; the
second sync reports one file scanned and zero new commands. -/
theorem c3_resync_unchanged_witness :
    ((collectJsonl ("p") exFs.entries).length = 1)
    ∧ (sync noneDecode ("p") exFs false
          (sync noneDecode ("p") exFs false emptyDb).2).1
        = { filesScanned := (collectJsonl ("p") exFs.entries).length,
            newCommands := 0, errors := [] } :=
  ⟨by decide, c3_resync_unchanged noneDecode ("p") exFs emptyDb rfl (by decide)⟩
